import Mathlib

/-!
Verification development for the Whisperspace OBR rules extension.

The definitions below are a shallow embedding of the rules-reference engine:
`src/ui/weaponKeywords.ts` (keyword matcher) and `src/ui/RulesApp.tsx`
(glossary builder, text annotator, content normalizer, search filter).
Strings are modelled as `List Char` in the computational core; JavaScript
`Map` objects are modelled by insertion-ordered association lists; regular
expressions synthesised by the code are embedded by their matching semantics
on the concrete pattern shapes the code constructs.
-/

/-! ## Character and string primitives (JavaScript semantics, ASCII model) -/

/-- Character class of JavaScript `\s` (whitespace), as used by `String.trim`,
`\s+` patterns and the keyword matcher. -/
def jsSpace (c : Char) : Bool :=
  c = Char.ofNat 9 || c = Char.ofNat 10 || c = Char.ofNat 11 || c = Char.ofNat 12 ||
  c = Char.ofNat 13 || c = ' ' || c = Char.ofNat 0xA0 || c = Char.ofNat 0x1680 ||
  (Char.ofNat 0x2000 ≤ c && c ≤ Char.ofNat 0x200A) ||
  c = Char.ofNat 0x2028 || c = Char.ofNat 0x2029 || c = Char.ofNat 0x202F ||
  c = Char.ofNat 0x205F || c = Char.ofNat 0x3000 || c = Char.ofNat 0xFEFF

/-- Line terminators, which the JavaScript `.` regex atom does not match. -/
def isLineTerm (c : Char) : Bool :=
  c = Char.ofNat 10 || c = Char.ofNat 13 || c = Char.ofNat 0x2028 || c = Char.ofNat 0x2029

/-- Character class of JavaScript `\w` (word character), used by `\b` boundaries. -/
def isWordChar (c : Char) : Bool :=
  c.isAlphanum || c = '_'

/-- Lowercasing of a character (`String.prototype.toLowerCase`, ASCII model). -/
def lowerChar (c : Char) : Char := c.toLower

/-- Lowercasing of a string given as a character list. -/
def lowerL (l : List Char) : List Char := l.map lowerChar

/-- JavaScript `String.prototype.trim`. -/
def trimL (l : List Char) : List Char :=
  ((l.dropWhile jsSpace).reverse.dropWhile jsSpace).reverse

/-- JavaScript `String.prototype.includes`: substring containment test. -/
def containsSub (hay needle : List Char) : Bool :=
  if needle.isPrefixOf hay then true
  else
    match hay with
    | [] => false
    | _ :: t => containsSub t needle

/-- Fuel-driven search loop behind `indexOfFrom`. -/
def indexOfAux (hay needle : List Char) : Nat → Nat → Option Nat
  | _, 0 => none
  | j, fuel + 1 =>
    if needle.isPrefixOf (hay.drop j) then some j
    else if hay.length ≤ j then none
    else indexOfAux hay needle (j + 1) fuel

/-- JavaScript `String.prototype.indexOf(needle, start)` for a non-empty
needle, returning `none` for `-1`. -/
def indexOfFrom (hay needle : List Char) (start : Nat) : Option Nat :=
  indexOfAux hay needle start (hay.length + 1)

/-- JavaScript `String.prototype.slice(a, b)` for `0 ≤ a ≤ b`. -/
def sliceL (l : List Char) (a b : Nat) : List Char :=
  (l.drop a).take (b - a)

/-- String wrapper around `trimL`. -/
def strTrim (s : String) : String := ⟨trimL s.data⟩

/-- String wrapper around `lowerL`. -/
def strLower (s : String) : String := ⟨lowerL s.data⟩

/-! ## JavaScript `Map` model

Insertion-ordered association list: `set` on an existing key updates the
value in place (keeping the key's position), otherwise appends; iteration
order is entry order. -/

structure JsMap (α : Type) where
  entries : List (String × α)
deriving DecidableEq

def JsMap.empty {α : Type} : JsMap α := ⟨[]⟩

def JsMap.get {α : Type} (m : JsMap α) (k : String) : Option α :=
  (m.entries.find? (fun e => e.1 == k)).map (·.2)

def JsMap.has {α : Type} (m : JsMap α) (k : String) : Bool :=
  m.entries.any (fun e => e.1 == k)

def JsMap.set {α : Type} (m : JsMap α) (k : String) (v : α) : JsMap α :=
  if m.has k then ⟨m.entries.map (fun e => if e.1 == k then (k, v) else e)⟩
  else ⟨m.entries ++ [(k, v)]⟩

def JsMap.keys {α : Type} (m : JsMap α) : List String := m.entries.map (·.1)

/-- `if (!map.has(k)) map.set(k, v)` — first registration wins. -/
def JsMap.setIfAbsent {α : Type} (m : JsMap α) (k : String) (v : α) : JsMap α :=
  if m.has k then m else m.set k v

/-! ## Data model (`RuleSpan`, `RuleBlock`, `RuleSection` from RulesApp.tsx)

Optional TypeScript fields are `Option`s; a JSON-parsed object omits absent
optional fields, which the serializer below mirrors. -/

structure RuleSpan where
  text : Option String
deriving DecidableEq

structure RuleCell where
  text : String
  spans : Option (List RuleSpan)
deriving DecidableEq

structure RuleItem where
  text : String
  spans : Option (List RuleSpan)
deriving DecidableEq

inductive RuleBlock where
  | paragraph (text : String) (spans : Option (List RuleSpan))
  | list (ordered : Option Bool) (items : Option (List RuleItem))
  | table (rows : List (List RuleCell))
deriving DecidableEq

inductive RuleSection where
  | mk (title : String) (slug : Option String) (level : Option Nat)
       (content : Option (List RuleBlock)) (sections : Option (List RuleSection))

def RuleSection.title : RuleSection → String
  | .mk t _ _ _ _ => t

def RuleSection.slug : RuleSection → Option String
  | .mk _ sl _ _ _ => sl

def RuleSection.level : RuleSection → Option Nat
  | .mk _ _ lv _ _ => lv

def RuleSection.content : RuleSection → Option (List RuleBlock)
  | .mk _ _ _ ct _ => ct

def RuleSection.sections : RuleSection → Option (List RuleSection)
  | .mk _ _ _ _ ss => ss

/-! ## Keyword matcher (`src/ui/weaponKeywords.ts`)

`buildMatcher` synthesises one of three anchored case-insensitive regex
shapes; they are embedded structurally together with their matching
semantics. -/

/-- Lower-case alphanumeric test: the class `[a-z0-9]` used by `slugify`
after lowercasing. -/
def isLowerAlnum (c : Char) : Bool :=
  ('a' ≤ c && c ≤ 'z') || ('0' ≤ c && c ≤ '9')

/-- Replace every run of characters outside `[a-z0-9]` with a single `'-'`
(the `replace(/[^a-z0-9]+/g, "-")` step of `slugify`). The flag records
whether we are inside such a run. -/
def collapseRunsAux : Bool → List Char → List Char
  | _, [] => []
  | inRun, c :: rest =>
    if isLowerAlnum c then c :: collapseRunsAux false rest
    else if inRun then collapseRunsAux true rest
    else '-' :: collapseRunsAux true rest

/-- Strip leading and trailing hyphens (the `replace(/^-+|-+$/g, "")` step). -/
def stripDashes (l : List Char) : List Char :=
  ((l.dropWhile (· = '-')).reverse.dropWhile (· = '-')).reverse

/-- `slugify` from weaponKeywords.ts: lowercase, collapse non-alphanumeric
runs to hyphens, strip outer hyphens. -/
def slugifyL (s : List Char) : List Char :=
  stripDashes (collapseRunsAux false (lowerL s))

/-- Split a list at the first occurrence of `pat`, returning the parts
before and after it (the semantics of a single `String.replace(pat, …)`). -/
def splitFirst (pat : List Char) (s : List Char) : Option (List Char × List Char) :=
  if pat.isPrefixOf s then some ([], s.drop pat.length)
  else
    match s with
    | [] => none
    | c :: rest => (splitFirst pat rest).map (fun p => (c :: p.1, p.2))

/-- The three regex shapes `buildMatcher` can produce:
`paren a b` is `^A\((.+)\)B$` (name contained `"(X)"`),
`spaceX c d` is `^C\s+(.+)D$` (name contained `" X"`),
`literal l` is `^L$`; all carry the `i` flag. -/
inductive MatcherShape where
  | paren (a b : List Char)
  | spaceX (c d : List Char)
  | literal (l : List Char)
deriving DecidableEq

def MatcherShape.hasParam : MatcherShape → Bool
  | .paren _ _ => true
  | .spaceX _ _ => true
  | .literal _ => false

/-- `buildMatcher` from weaponKeywords.ts. The source escapes the trimmed
name for regex use and then replaces the first `"\(X\)"` (resp. the first
`" X"`) of the escaped text with a capturing group; on the original text
this is exactly a split at the first occurrence of `"(X)"` (resp. `" X"`),
the surrounding parts remaining literal. -/
def buildMatcher (defName : List Char) : MatcherShape :=
  let trimmed := trimL defName
  match splitFirst ['(', 'X', ')'] trimmed with
  | some p => .paren p.1 p.2
  | none =>
    match splitFirst [' ', 'X'] trimmed with
    | some p => .spaceX p.1 p.2
    | none => .literal trimmed

/-- Case-insensitive string equality (the `i` regex flag, ASCII model). -/
def ciEqL (a b : List Char) : Bool := lowerL a == lowerL b

/-- Matching semantics of a compiled matcher against a whole string:
`none` means no match, `some cap` is a match with captured group `cap`
(`cap = none` for the literal shape).

For `^A\((.+)\)B$` the anchors and the fixed-length literals around the
greedy group pin every position, so the capture is the text strictly
between `A(` and `)B`; it must be non-empty and, since `.` does not match
line terminators, free of them.

For `^C\s+(.+)D$` the suffix `D$` is pinned; writing `M` for the middle
between `C` and `D`, the greedy `\s+` takes the maximal whitespace prefix
of `M` that still leaves the group at least one character, so the capture
is `M` minus its first `min(maxWs, |M|-1)` characters. -/
def matchShape : MatcherShape → List Char → Option (Option (List Char))
  | .literal l, text => if ciEqL l text then some none else none
  | .paren a b, text =>
    let n := text.length
    if a.length + b.length + 3 ≤ n then
      let p := (text.drop (a.length + 1)).take (n - a.length - b.length - 2)
      if ciEqL a (text.take a.length)
          && (text.drop a.length).head? == some '('
          && (text.drop (n - b.length - 1)).head? == some ')'
          && ciEqL b (text.drop (n - b.length))
          && p.all (fun c => !(isLineTerm c))
      then some (some p) else none
    else none
  | .spaceX c d, text =>
    let n := text.length
    if c.length + d.length + 2 ≤ n then
      let m := (text.drop c.length).take (n - c.length - d.length)
      let maxWs := (m.takeWhile jsSpace).length
      if 1 ≤ maxWs
          && ciEqL c (text.take c.length)
          && ciEqL d (text.drop (n - d.length))
      then
        let p := m.drop (min maxWs (m.length - 1))
        if p.all (fun ch => !(isLineTerm ch)) then some (some p) else none
      else none
    else none

/-- Expansion of a `String.replace` replacement string at one match site
(ECMAScript GetSubstitution): `$$` is a literal dollar, `$&` the matched
text, a backtick-dollar the text before the match, a quote-dollar the text
after it; `$n` and `$<` are literal because the pattern `/\bX\b/` has no
capture groups; any other `$` is literal. -/
def expandRepl (before matched after : List Char) : List Char → List Char
  | [] => []
  | '$' :: rest =>
    match rest with
    | [] => ['$']
    | c :: r =>
      if c = '$' then '$' :: expandRepl before matched after r
      else if c = '&' then matched ++ expandRepl before matched after r
      else if c = Char.ofNat 96 then before ++ expandRepl before matched after r
      else if c = Char.ofNat 39 then after ++ expandRepl before matched after r
      else '$' :: expandRepl before matched after (c :: r)
  | c :: rest => c :: expandRepl before matched after rest

/-- Scanning loop of `description.replace(/\bX\b/g, repl)`: `prevW` is
whether the previous character is a word character (for the left `\b`),
`before` the original text already passed (for GetSubstitution). -/
def replaceWordXAux (repl : List Char) : Bool → List Char → List Char → List Char
  | _, _, [] => []
  | prevW, before, c :: rest =>
    if c = 'X' && !prevW &&
        (match rest with | [] => true | d :: _ => !(isWordChar d)) then
      expandRepl before ['X'] rest repl ++ replaceWordXAux repl true (before ++ [c]) rest
    else
      c :: replaceWordXAux repl (isWordChar c) (before ++ [c]) rest

/-- `description.replace(/\bX\b/g, repl)` from `resolveWeaponKeyword`. -/
def replaceWordX (desc repl : List Char) : List Char :=
  replaceWordXAux repl false [] desc

/-- Result type of `resolveWeaponKeyword`. -/
structure WeaponKeywordMatch where
  label : List Char
  description : List Char
  anchor : List Char
deriving DecidableEq

def KEYWORD_ANCHOR : List Char := "weapon-keywords".data

/-- Description computed by `resolveWeaponKeyword` for a match: with a
captured parameter, substitute every whole-word `X` by the trimmed capture
(falling back to the literal `"X"` when it trims to empty); without one,
the definition's description unchanged. -/
def wkDescription (desc : String) (cap : Option (List Char)) : List Char :=
  match cap with
  | some raw =>
    let param := trimL raw
    replaceWordX desc.data (if param.isEmpty then ['X'] else param)
  | none => desc.data

/-- Anchor computed by `resolveWeaponKeyword` from the trimmed input:
`weapon-keyword-<slug>`, or the generic anchor for an empty slug. -/
def wkAnchor (text : List Char) : List Char :=
  let slug := slugifyL text
  if slug.isEmpty then KEYWORD_ANCHOR else "weapon-keyword-".data ++ slug

/-- `resolveWeaponKeyword` from weaponKeywords.ts, with the keyword
definition table (`WEAPON_KEYWORDS`, data not part of the sources) as a
parameter of (name, description) pairs, compiled in order as in
`KEYWORD_MATCHERS`. -/
def resolveWeaponKeyword (defs : List (String × String)) (keyword : List Char) :
    Option WeaponKeywordMatch :=
  let text := trimL keyword
  if text.isEmpty then none
  else
    defs.findSome? (fun d =>
      match matchShape (buildMatcher d.1.data) text with
      | none => none
      | some cap => some ⟨text, wkDescription d.2 cap, wkAnchor text⟩)

/-- Split on commas (`String.prototype.split(",")`). -/
def splitOnComma : List Char → List (List Char)
  | [] => [[]]
  | c :: rest =>
    if c = ',' then [] :: splitOnComma rest
    else
      match splitOnComma rest with
      | [] => [[c]]
      | p :: ps => (c :: p) :: ps

/-- `splitKeywordList` from weaponKeywords.ts: comma-split, trim each part,
drop empties. -/
def splitKeywordList (text : List Char) : List (List Char) :=
  ((splitOnComma text).map trimL).filter (fun p => !p.isEmpty)

/-! ## RulesApp.tsx: section ids and content normalizer -/

/-- Replace every run of `\s` characters by a single hyphen
(`title.toLowerCase().replace(/\s+/g, "-")`, no trimming). -/
def replaceWsRunsAux : Bool → List Char → List Char
  | _, [] => []
  | inRun, c :: rest =>
    if jsSpace c then
      if inRun then replaceWsRunsAux true rest
      else '-' :: replaceWsRunsAux true rest
    else c :: replaceWsRunsAux false rest

/-- Fallback identifier derived from a section title. -/
def slugFromTitle (title : String) : String :=
  ⟨replaceWsRunsAux false (lowerL title.data)⟩

/-- `getSectionId` from RulesApp.tsx: `section.slug || title.toLowerCase()
.replace(/\s+/g, "-")`; an empty explicit slug is falsy and falls through. -/
def getSectionId (s : RuleSection) : String :=
  match s.slug with
  | some sl => if sl = "" then slugFromTitle s.title else sl
  | none => slugFromTitle s.title

/-- `flattenTableText`: all cell texts of a table, row-major. -/
def flattenTableText (rows : List (List RuleCell)) : List String :=
  rows.flatten.map (·.text)

/-- Inner look-ahead loop of `normalizeContent`: how many immediately
following blocks are paragraphs echoing the flattened cell texts in order. -/
def dupCount : List String → List RuleBlock → Nat
  | [], _ => 0
  | _ :: _, [] => 0
  | t :: ts, b :: bs =>
    match b with
    | .paragraph text _ => if text = t then 1 + dupCount ts bs else 0
    | _ => 0

/-- `normalizeContent` from RulesApp.tsx: every block is kept except that
after a table block the `dupCount` echo paragraphs are skipped. -/
def normalizeContent : List RuleBlock → List RuleBlock
  | [] => []
  | RuleBlock.table rows :: rest =>
    let texts := (flattenTableText rows).filter (fun t => t.length > 0)
    RuleBlock.table rows :: normalizeContent (rest.drop (dupCount texts rest))
  | b :: rest => b :: normalizeContent rest
termination_by l => l.length
decreasing_by
  all_goals simp [List.length_drop]
  all_goals omega

/-! ## RulesApp.tsx: anchor maps (`buildAnchorMaps`) -/

/-- Heading candidate: computed id, owning document slug, traversal depth. -/
structure Cand where
  id : String
  docSlug : String
  depth : Nat
deriving DecidableEq

/-- Link-term record stored in the glossary. -/
structure LinkInfo where
  id : String
  docSlug : String
  sameLevelCount : Nat
deriving DecidableEq

/-- Stop-word set of `buildAnchorMaps`. -/
def BLACKLIST : List String := ["the", "and", "or", "of", "in", "to", "a", "an"]

mutual
/-- `collectSectionTitles`: preorder traversal pairing each section with its
depth (the source pushes a copy `{...section, level: depth}`). -/
def collectSectionTitles : RuleSection → Nat → List (RuleSection × Nat)
  | RuleSection.mk t sl lv ct ss, depth =>
    (RuleSection.mk t sl lv ct ss, depth) ::
      (match ss with
       | some l => collectSectionTitlesList l (depth + 1)
       | none => [])
def collectSectionTitlesList : List RuleSection → Nat → List (RuleSection × Nat)
  | [], _ => []
  | s :: rest, depth => collectSectionTitles s depth ++ collectSectionTitlesList rest depth
end

/-- Body of the candidate-collection loop of `buildAnchorMaps`. -/
def addCandidate (docSlug : String) (m : JsMap (List Cand)) (sd : RuleSection × Nat) :
    JsMap (List Cand) :=
  let title := strTrim sd.1.title
  if title = "" then m
  else if title.length < 4 then m
  else if BLACKLIST.contains (strLower title) then m
  else
    m.set title (((m.get title).getD []) ++ [⟨getSectionId sd.1, docSlug, sd.2⟩])

/-- Heading candidates grouped by exact (trimmed) title, in document
traversal order across all documents. -/
def candidatesOf (docs : List RuleSection) : JsMap (List Cand) :=
  docs.foldl
    (fun m doc => (collectSectionTitles doc 0).foldl (addCandidate (getSectionId doc)) m)
    JsMap.empty

/-- Minimum traversal depth of a candidate group
(`Math.min(...list.map(c => c.depth))`). -/
def minDepthOf : List Cand → Nat
  | [] => 0
  | c :: rest => rest.foldl (fun acc x => min acc x.depth) c.depth

/-- Duplicate-title resolution step of `buildAnchorMaps`: filter the group to
its minimum depth, pick the first such candidate, record the tie count.
`none` only for an empty filter result, which cannot happen on a non-empty
group (the source would crash there). -/
def resolveGroup (l : List Cand) : Option LinkInfo :=
  let sameLevel := l.filter (fun c => c.depth == minDepthOf l)
  match sameLevel with
  | [] => none
  | c :: _ => some ⟨c.id, c.docSlug, sameLevel.length⟩

/-- Keyword-table scan of `buildAnchorMaps` over one block list: register
`weapon-keyword-<slug>` anchors for body rows of keyword tables, first
registration winning. -/
def anchorWalkBlocks (docSlug : String) (m : JsMap String) (bs : List RuleBlock) :
    JsMap String :=
  bs.foldl
    (fun m b =>
      match b with
      | RuleBlock.table rows =>
        match rows with
        | [] => m
        | head :: body =>
          let headerText := head.map (fun cell => strLower cell.text)
          if headerText.any (fun h => containsSub h.data "keyword".data)
              && 2 ≤ headerText.length then
            body.foldl
              (fun m row =>
                let raw := slugifyL (((row.head?.map (·.text)).getD "")).data
                if raw.isEmpty then m
                else m.setIfAbsent ("weapon-keyword-" ++ String.mk raw) docSlug)
              m
          else m
      | _ => m)
    m

mutual
/-- Recursive `walk` of `buildAnchorMaps`: content tables first, then child
sections. -/
def anchorWalk (docSlug : String) (s : RuleSection) (m : JsMap String) : JsMap String :=
  match s with
  | RuleSection.mk _ _ _ ct ss =>
    let m1 := match ct with
      | some bs => anchorWalkBlocks docSlug m bs
      | none => m
    match ss with
    | some l => anchorWalkList docSlug l m1
    | none => m1
def anchorWalkList (docSlug : String) (l : List RuleSection) (m : JsMap String) :
    JsMap String :=
  match l with
  | [] => m
  | s :: rest => anchorWalkList docSlug rest (anchorWalk docSlug s m)
end

/-- Body of the resolution loop over one candidate group: record the chosen
link target under the title and extend `anchorToDoc` with the chosen id
(absent-only). -/
def resolveStep (acc : JsMap LinkInfo × JsMap String) (e : String × List Cand) :
    JsMap LinkInfo × JsMap String :=
  if e.2.isEmpty then acc
  else
    match resolveGroup e.2 with
    | some info => (acc.1.set e.1 info, acc.2.setIfAbsent info.id info.docSlug)
    | none => acc

/-- Resolution loop over the candidate groups: build `linkTerms` and extend
`anchorToDoc` with the chosen ids (absent-only). -/
def resolveCandidates (entries : List (String × List Cand))
    (acc : JsMap LinkInfo × JsMap String) : JsMap LinkInfo × JsMap String :=
  entries.foldl resolveStep acc

/-- `buildAnchorMaps` from RulesApp.tsx, returning `(linkTerms, anchorToDoc)`.
The source interleaves candidate collection and the keyword-anchor walk
per document; the two accumulators are independent, so collecting all
candidates first yields the same maps. -/
def buildAnchorMaps (docs : List RuleSection) : JsMap LinkInfo × JsMap String :=
  let anchor0 := docs.foldl (fun m doc => anchorWalk (getSectionId doc) doc m) JsMap.empty
  resolveCandidates (candidatesOf docs).entries (JsMap.empty, anchor0)

/-! ## RulesApp.tsx: glossary construction (`buildGlossary`) -/

/-- Tooltip-term registration: attributes, then skills, then weapon keyword
names, each guarded by truthiness of key and description; `Map.set`
overwrites the value of an existing key. -/
def buildTooltipTerms (attrs skills weaponKws : List (String × String)) : JsMap String :=
  let m1 := attrs.foldl
    (fun m e => if e.1 ≠ "" ∧ e.2 ≠ "" then m.set e.1 e.2 else m) JsMap.empty
  let m2 := skills.foldl
    (fun m e => if e.1 ≠ "" ∧ e.2 ≠ "" then m.set e.1 e.2 else m) m1
  weaponKws.foldl
    (fun m e => if e.1 ≠ "" ∧ e.2 ≠ "" then m.set e.1 e.2 else m) m2

/-- First-occurrence deduplication (`new Set([...])` preserves first-seen
order). -/
def dedupFirstAux (seen : List String) : List String → List String
  | [] => []
  | x :: rest =>
    if seen.contains x then dedupFirstAux seen rest
    else x :: dedupFirstAux (x :: seen) rest

/-- Insertion step of the descending-length sort. -/
def insertDesc (x : String) : List String → List String
  | [] => [x]
  | y :: ys => if x.length < y.length then y :: insertDesc x ys else x :: y :: ys

/-- Sort by descending string length (`.sort((a, b) => b.length - a.length)`);
ties keep an arbitrary deterministic order, which the engine never relies
on beyond determinism. -/
def sortByLenDesc : List String → List String
  | [] => []
  | x :: xs => insertDesc x (sortByLenDesc xs)

/-- Final term set of the composite matcher: union of tooltip keys and link
keys, deduplicated, sorted by descending length. -/
def glossaryTerms (tooltipTerms : JsMap String) (linkTerms : JsMap LinkInfo) :
    List String :=
  sortByLenDesc (dedupFirstAux [] (tooltipTerms.keys ++ linkTerms.keys))

/-- Derived glossary; `terms = []` corresponds to `regex: null`. -/
structure Glossary where
  terms : List String
  linkTerms : JsMap LinkInfo
  tooltipTerms : JsMap String
  anchorToDoc : JsMap String

/-- `buildGlossary` from RulesApp.tsx with the three lookup tables
(`ATTRIBUTE_TOOLTIPS`, `SKILL_TOOLTIPS`, `WEAPON_KEYWORDS`, data not part
of the sources) as parameters. -/
def buildGlossary (docs : List RuleSection) (attrs skills weaponKws : List (String × String)) :
    Glossary :=
  let maps := buildAnchorMaps docs
  let tooltipTerms := buildTooltipTerms attrs skills weaponKws
  ⟨glossaryTerms tooltipTerms maps.1, maps.1, tooltipTerms, maps.2⟩

/-! ## RulesApp.tsx: composite matcher scan and annotation -/

/-- Does the term's pattern get a leading `\b`? (`/^[A-Za-z0-9]/`). -/
def startsWordB (t : String) : Bool :=
  match t.data with
  | [] => false
  | c :: _ => c.isAlphanum

/-- Does the term's pattern get a trailing `\b`? (`/[A-Za-z0-9]$/`). -/
def endsWordB (t : String) : Bool :=
  match t.data.getLast? with
  | some c => c.isAlphanum
  | none => false

/-- One alternation branch of the composite glossary regex matching at
position `i`: the literal term (case-sensitively), with `\b` conditions at
the edges that start/end with an alphanumeric character. -/
def matchesAt (text : List Char) (i : Nat) (term : String) : Bool :=
  term.data.isPrefixOf (text.drop i)
  && (!startsWordB term ||
      (match i with
       | 0 => true
       | j + 1 =>
         match text[j]? with
         | some c => !(isWordChar c)
         | none => true))
  && (!endsWordB term ||
      (match (text.drop (i + term.length)).head? with
       | some c => !(isWordChar c)
       | none => true))

/-- First alternation branch matching at position `i` (JavaScript alternation
is ordered; nothing follows the group, so the first matching branch wins). -/
def findTerm (terms : List String) (text : List Char) (i : Nat) : Option String :=
  terms.find? (fun t => matchesAt text i t)

/-- Scan loop of the `g`-flagged composite regex: advance position by
position; on a match emit `(start, term)` and resume after it. -/
def scanAux (terms : List String) (text : List Char) : Nat → Nat → List (Nat × String)
  | _, 0 => []
  | i, fuel + 1 =>
    if i < text.length then
      match findTerm terms text i with
      | some t => (i, t) :: scanAux terms text (i + t.length) fuel
      | none => scanAux terms text (i + 1) fuel
    else []

/-- All matches of `regex.exec` over the text, left to right. -/
def glossaryScan (terms : List String) (text : List Char) : List (Nat × String) :=
  scanAux terms text 0 (text.length + 1)

/-- Logical render output of the annotator (React nodes abstracted). -/
inductive RNode where
  | text (s : List Char)
  | mark (s : List Char)
  | tooltipSpan (tip : List Char) (content : List RNode)
  | linkAnchor (id : String) (docSlug : String) (sameLevelCount : Nat)
      (content : List RNode)
  | keywordLink (anchor : String) (description : List Char) (content : List RNode)
      (trailingSep : Bool)

/-- Loop of `highlightText`: emit plain runs and `<mark>` nodes for each
case-insensitive occurrence of the query. -/
def hlAux (text lower qLower : List Char) (qLen : Nat) : Nat → Nat → List RNode
  | _, 0 => []
  | i, fuel + 1 =>
    if i < text.length then
      match indexOfFrom lower qLower i with
      | none => [RNode.text (sliceL text i text.length)]
      | some hit =>
        (if i < hit then [RNode.text (sliceL text i hit)] else [])
        ++ RNode.mark (sliceL text hit (hit + qLen))
        :: hlAux text lower qLower qLen (hit + qLen) fuel
    else []

/-- `highlightText` from RulesApp.tsx. -/
def highlightText (text q : List Char) : List RNode :=
  if q.isEmpty then [RNode.text text]
  else hlAux text (lowerL text) (lowerL q) q.length 0 (text.length + 1)

/-- Annotation of one matched term: tooltip lookup first, then link lookup,
else the highlighted text alone. -/
def renderMatch (gl : Glossary) (q : List Char) (term : String) : List RNode :=
  let content := highlightText term.data q
  match gl.tooltipTerms.get term with
  | some tip => [RNode.tooltipSpan tip.data content]
  | none =>
    match gl.linkTerms.get term with
    | some link => [RNode.linkAnchor link.id link.docSlug link.sameLevelCount content]
    | none => content

/-- Node-emission loop of `renderGlossaryText` over the scan result,
carrying `lastIndex`. -/
def renderScan (gl : Glossary) (raw q : List Char) :
    List (Nat × String) → Nat → List RNode
  | [], lastIndex =>
    if lastIndex < raw.length then highlightText (sliceL raw lastIndex raw.length) q
    else []
  | (start, term) :: ms, lastIndex =>
    (if lastIndex < start then highlightText (sliceL raw lastIndex start) q else [])
    ++ renderMatch gl q term
    ++ renderScan gl raw q ms (start + term.length)

/-- `renderGlossaryText` from RulesApp.tsx: the general annotation pass. -/
def renderGlossaryText (text q : List Char) (gl : Glossary) : List RNode :=
  if gl.terms.isEmpty then highlightText text q
  else renderScan gl text q (glossaryScan gl.terms text) 0

/-- `resolved.some(r => !r)` dual: collect all values when every option is
`some`. -/
def allSome {α : Type} : List (Option α) → Option (List α)
  | [] => some []
  | none :: _ => none
  | some x :: rest => (allSome rest).map (x :: ·)

/-- Per-token rendering of a fully resolved keyword cell, with `", "`
separators between tokens. -/
def renderKeywordParts (q : List Char) :
    List (List Char × WeaponKeywordMatch) → List RNode
  | [] => []
  | (part, info) :: rest =>
    RNode.keywordLink (String.mk info.anchor) info.description (highlightText part q)
      (!rest.isEmpty)
    :: renderKeywordParts q rest

/-- `renderKeywordText` from RulesApp.tsx: comma-split the cell, resolve all
tokens; if any fails (or the split is empty), fall back to
`highlightText`; otherwise render dedicated keyword links. -/
def renderKeywordText (defs : List (String × String)) (gl : Glossary)
    (text q : List Char) : List RNode :=
  let parts := splitKeywordList text
  if parts.isEmpty then highlightText text q
  else
    let resolved := parts.map (resolveWeaponKeyword defs)
    match allSome resolved with
    | none => highlightText text q
    | some infos => renderKeywordParts q (parts.zip infos)

/-! ## RulesApp.tsx: search (`JSON.stringify` model, filter, match count)

`JSON.stringify` of a parsed rules object: fields in declaration order,
absent optional fields omitted, strings escaped per ECMAScript `QuoteJSONString`. -/

/-- Lowercase hexadecimal digit. -/
def hexDigit (n : Nat) : Char :=
  if n < 10 then Char.ofNat (48 + n) else Char.ofNat (87 + n)

/-- Escape of one character inside a JSON string literal. -/
def jsonEscapeChar (c : Char) : List Char :=
  if c = '"' then ['\\', '"']
  else if c = '\\' then ['\\', '\\']
  else if c = Char.ofNat 8 then ['\\', 'b']
  else if c = Char.ofNat 9 then ['\\', 't']
  else if c = Char.ofNat 10 then ['\\', 'n']
  else if c = Char.ofNat 12 then ['\\', 'f']
  else if c = Char.ofNat 13 then ['\\', 'r']
  else if c.toNat < 32 then
    ['\\', 'u', '0', '0', hexDigit (c.toNat / 16), hexDigit (c.toNat % 16)]
  else [c]

/-- JSON string literal for `s`. -/
def jsonQuote (s : String) : List Char :=
  '"' :: (s.data.map jsonEscapeChar).flatten ++ ['"']

/-- Comma-join serialized items. -/
def joinComma : List (List Char) → List Char
  | [] => []
  | [x] => x
  | x :: y :: rest => x ++ ',' :: joinComma (y :: rest)

def jsonField (key : String) (val : List Char) : List Char :=
  jsonQuote key ++ ':' :: val

def jsonArr (items : List (List Char)) : List Char :=
  '[' :: joinComma items ++ [']']

def jsonObj (fields : List (List Char)) : List Char :=
  '{' :: joinComma fields ++ ['}']

def jsonBool (b : Bool) : List Char :=
  if b then "true".data else "false".data

def jsonNat (n : Nat) : List Char := (Nat.repr n).data

def serializeSpan (sp : RuleSpan) : List Char :=
  jsonObj (match sp.text with
    | some t => [jsonField "text" (jsonQuote t)]
    | none => [])

def serializeCell (c : RuleCell) : List Char :=
  jsonObj ([jsonField "text" (jsonQuote c.text)]
    ++ (match c.spans with
        | some l => [jsonField "spans" (jsonArr (l.map serializeSpan))]
        | none => []))

def serializeItem (it : RuleItem) : List Char :=
  jsonObj ([jsonField "text" (jsonQuote it.text)]
    ++ (match it.spans with
        | some l => [jsonField "spans" (jsonArr (l.map serializeSpan))]
        | none => []))

def serializeBlock : RuleBlock → List Char
  | .paragraph t sp =>
    jsonObj ([jsonField "type" (jsonQuote "paragraph"), jsonField "text" (jsonQuote t)]
      ++ (match sp with
          | some l => [jsonField "spans" (jsonArr (l.map serializeSpan))]
          | none => []))
  | .list ord items =>
    jsonObj ([jsonField "type" (jsonQuote "list")]
      ++ (match ord with
          | some o => [jsonField "ordered" (jsonBool o)]
          | none => [])
      ++ (match items with
          | some l => [jsonField "items" (jsonArr (l.map serializeItem))]
          | none => []))
  | .table rows =>
    jsonObj [jsonField "type" (jsonQuote "table"),
             jsonField "rows" (jsonArr (rows.map (fun r => jsonArr (r.map serializeCell))))]

mutual
/-- `JSON.stringify(section)` for a rule section. -/
def serializeSection : RuleSection → List Char
  | RuleSection.mk title slug level content sections =>
    jsonObj ([jsonField "title" (jsonQuote title)]
      ++ (match slug with
          | some sl => [jsonField "slug" (jsonQuote sl)]
          | none => [])
      ++ (match level with
          | some lv => [jsonField "level" (jsonNat lv)]
          | none => [])
      ++ (match content with
          | some bs => [jsonField "content" (jsonArr (bs.map serializeBlock))]
          | none => [])
      ++ (match sections with
          | some ss => [jsonField "sections" (jsonArr (serializeSectionList ss))]
          | none => []))
def serializeSectionList : List RuleSection → List (List Char)
  | [] => []
  | s :: rest => serializeSection s :: serializeSectionList rest
end

/-- `sectionMatchesQuery` from RulesApp.tsx: empty query always matches;
otherwise substring search of the query in the lowercased JSON
serialization of the section. -/
def sectionMatchesQuery (s : RuleSection) (q : List Char) : Bool :=
  if q.isEmpty then true
  else containsSub (lowerL (serializeSection s)) q

/-- Counting loop of `countQueryMatches`: non-overlapping occurrences via
`indexOf`, advancing past each hit. -/
def countOccAux (hay q : List Char) : Nat → Nat → Nat
  | _, 0 => 0
  | idx, fuel + 1 =>
    match indexOfFrom hay q idx with
    | none => 0
    | some hit => 1 + countOccAux hay q (hit + q.length) fuel

/-- `countQueryMatches` from RulesApp.tsx: `0` for the empty query, else the
number of non-overlapping occurrences in the lowercased serialization. -/
def countQueryMatches (s : RuleSection) (q : List Char) : Nat :=
  if q.isEmpty then 0
  else
    let hay := lowerL (serializeSection s)
    countOccAux hay q 0 (hay.length + 1)

mutual
/-- `filterSection` from RulesApp.tsx: the empty query returns the section
unchanged; otherwise keep the section iff it self-matches or retains a
child, replacing its child list by the retained children
(`{...section, sections: children}`). -/
def filterSection (s : RuleSection) (q : List Char) : Option RuleSection :=
  if q.isEmpty then some s
  else
    match s with
    | RuleSection.mk title slug level content sections =>
      let selfMatches := sectionMatchesQuery (RuleSection.mk title slug level content sections) q
      let children :=
        match sections with
        | some ss => filterChildren ss q
        | none => []
      if selfMatches || !children.isEmpty then
        some (RuleSection.mk title slug level content (some children))
      else none
/-- `.map(s => filterSection(s, q)).filter(Boolean)` over the child list. -/
def filterChildren : List RuleSection → List Char → List RuleSection
  | [], _ => []
  | s :: rest, q =>
    match filterSection s q with
    | some s' => s' :: filterChildren rest q
    | none => filterChildren rest q
end

/-! ## Spec-side definitions

These follow the wording of the specification (not the source) and are used
to compare the code's behaviour against the claims. -/

/-- Texts of one content block as the spec's search claim enumerates them:
the paragraph text, the list item texts, or the table cell texts. -/
def blockTexts : RuleBlock → List String
  | .paragraph t _ => [t]
  | .list _ items =>
    (match items with
     | some l => l.map (·.text)
     | none => [])
  | .table rows => rows.flatten.map (·.text)

mutual
/-- Modelled from the spec: the title, content-block texts and descendant
titles/content texts of a section ("title + all nested content + all
descendant titles/content"). -/
def sectionTexts : RuleSection → List String
  | RuleSection.mk title _ _ content sections =>
    title ::
      ((match content with
        | some bs => (bs.map blockTexts).flatten
        | none => [])
       ++ (match sections with
           | some ss => sectionTextsList ss
           | none => []))
def sectionTextsList : List RuleSection → List String
  | [] => []
  | s :: rest => sectionTexts s ++ sectionTextsList rest
end

/-- Modelled from the spec: literal substitution of every whole-word `X`
token by `repl` ("replace every whole-word `X` token in the description
with the trimmed captured value"), with no replacement-string expansion. -/
def literalReplaceWordXAux (repl : List Char) : Bool → List Char → List Char
  | _, [] => []
  | prevW, c :: rest =>
    if c = 'X' && !prevW &&
        (match rest with | [] => true | d :: _ => !(isWordChar d)) then
      repl ++ literalReplaceWordXAux repl true rest
    else
      c :: literalReplaceWordXAux repl (isWordChar c) rest

/-- Modelled from the spec: `description` with every whole-word `X` replaced
literally by `repl`. -/
def literalReplaceWordX (desc repl : List Char) : List Char :=
  literalReplaceWordXAux repl false desc

/-- Modelled from the spec (C5): the first `k` blocks after the table are
paragraphs whose texts equal the first `k` flattened cell texts in order. -/
def echoes : List String → List RuleBlock → Nat → Prop
  | _, _, 0 => True
  | t :: ts, RuleBlock.paragraph p _ :: bs, k + 1 => p = t ∧ echoes ts bs k
  | _, _, _ + 1 => False

/-- Is a block a paragraph? (Used to state the frame property C9.) -/
def RuleBlock.isParagraph : RuleBlock → Bool
  | .paragraph _ _ => true
  | _ => false

/-- Character free of JSON escaping (printable, not quote or backslash). -/
def jsonPlainChar (c : Char) : Bool :=
  c ≠ '"' && c ≠ '\\' && 32 ≤ c.toNat

/-- String whose JSON literal is itself. -/
def jsonPlainStr (s : String) : Bool := s.data.all jsonPlainChar

/-- No dollar sign (no replacement-pattern expansion in `String.replace`). -/
def noDollar (l : List Char) : Bool := l.all (fun c => c ≠ '$')

/-- Top-constructor discriminator: is a node a tooltip span? -/
def RNode.isTooltip : RNode → Bool
  | .tooltipSpan _ _ => true
  | _ => false

/-- Registration sequence feeding `buildTooltipTerms`: the truthiness-guarded
(name, description) pairs from attributes, then skills, then weapon
keywords, in registration order. -/
def tooltipRegs (attrs skills weaponKws : List (String × String)) : List (String × String) :=
  attrs.filter (fun e => decide (e.1 ≠ "" ∧ e.2 ≠ ""))
    ++ skills.filter (fun e => decide (e.1 ≠ "" ∧ e.2 ≠ ""))
    ++ weaponKws.filter (fun e => decide (e.1 ≠ "" ∧ e.2 ≠ ""))

/-- Substring occurrence as a decomposition (used to reason about
`String.prototype.includes`). -/
def appearsIn (t hay : List Char) : Prop := ∃ a b, hay = a ++ t ++ b

/-! ## Concrete fixtures used by counterexamples and witnesses -/

/-- Glossary built over no documents with a single attribute tooltip. -/
def glFire : Glossary := buildGlossary [] [("Fire", "Elemental damage")] [] []

/-- Document with a depth-1 section titled "Resistances". -/
def docCore : RuleSection :=
  .mk "Core Rules" none none none
    (some [.mk "Resistances" none none none none])

/-- Document with a depth-2 section titled "Resistances". -/
def docAppendix : RuleSection :=
  .mk "Appendix" none none none
    (some [.mk "Extra Rules" none none none
      (some [.mk "Resistances" none none none none])])

def tableAB : RuleBlock := .table [[⟨"A", none⟩, ⟨"B", none⟩]]
def paraA : RuleBlock := .paragraph "A" none
def paraB : RuleBlock := .paragraph "B" none
def paraC : RuleBlock := .paragraph "C" none

/-- Value the resolution loop leaves under a key, as a function of that
key's candidate group (`none` group entry leaves the default). -/
def groupGet (o : Option (String × List Cand)) (dflt : Option LinkInfo) : Option LinkInfo :=
  match o with
  | some e =>
    if e.2.isEmpty then dflt
    else
      match resolveGroup e.2 with
      | some info => some info
      | none => dflt
  | none => dflt

/-! # Theorems -/

/-! ## Shared JsMap lemmas -/


lemma find?_update_self {α : Type} (k : String) (v : α) (es : List (String × α))
    (h : es.any (fun e => e.1 == k) = true) :
    (es.map (fun e => if e.1 == k then (k, v) else e)).find? (fun e => e.1 == k)
      = some (k, v) := by
  induction es with
  | nil => simp at h
  | cons e rest ih =>
    by_cases he : e.1 = k
    · have hmap : (e :: rest).map (fun e => if e.1 == k then (k, v) else e)
          = (k, v) :: rest.map (fun e => if e.1 == k then (k, v) else e) := by
        simp [he]
      rw [hmap, @List.find?_cons_of_pos _ (fun e => e.1 == k) (k, v) _ (by simp)]
    · have hmap : (e :: rest).map (fun e => if e.1 == k then (k, v) else e)
          = e :: rest.map (fun e => if e.1 == k then (k, v) else e) := by
        simp [he]
      have h' : rest.any (fun e => e.1 == k) = true := by
        simp only [List.any_cons, Bool.or_eq_true, beq_iff_eq] at h
        rcases h with h | h
        · exact absurd h he
        · simpa using h
      rw [hmap, @List.find?_cons_of_neg _ (fun e => e.1 == k) e _ (by simp [beq_iff_eq, he]),
          ih h']

lemma find?_update_other {α : Type} (k a : String) (v : α) (es : List (String × α))
    (hak : a ≠ k) :
    (es.map (fun e => if e.1 == k then (k, v) else e)).find? (fun e => e.1 == a)
      = es.find? (fun e => e.1 == a) := by
  induction es with
  | nil => simp
  | cons e rest ih =>
    by_cases he : e.1 = k
    · have hmap : (e :: rest).map (fun e => if e.1 == k then (k, v) else e)
          = (k, v) :: rest.map (fun e => if e.1 == k then (k, v) else e) := by
        simp [he]
      have h1 : ¬ ((fun (e : String × α) => e.1 == a) (k, v)) = true := by
        simp [beq_iff_eq]
        exact fun h => hak h.symm
      have h2 : ¬ ((fun (e : String × α) => e.1 == a) e) = true := by
        simp [beq_iff_eq, he]
        exact fun h => hak h.symm
      rw [hmap, @List.find?_cons_of_neg _ (fun e => e.1 == a) (k, v) _ h1, ih,
          @List.find?_cons_of_neg _ (fun e => e.1 == a) e _ h2]
    · have hmap : (e :: rest).map (fun e => if e.1 == k then (k, v) else e)
          = e :: rest.map (fun e => if e.1 == k then (k, v) else e) := by
        simp [he]
      by_cases hea : e.1 = a
      · rw [hmap, @List.find?_cons_of_pos _ (fun e => e.1 == a) e _ (by simp [beq_iff_eq, hea]),
            @List.find?_cons_of_pos _ (fun e => e.1 == a) e _ (by simp [beq_iff_eq, hea])]
      · rw [hmap, @List.find?_cons_of_neg _ (fun e => e.1 == a) e _ (by simp [beq_iff_eq, hea]), ih,
            @List.find?_cons_of_neg _ (fun e => e.1 == a) e _ (by simp [beq_iff_eq, hea])]

lemma JsMap.get_set {α : Type} (m : JsMap α) (k a : String) (v : α) :
    (m.set k v).get a = if a = k then some v else m.get a := by
  unfold JsMap.set JsMap.get JsMap.has
  by_cases hhas : m.entries.any (fun e => e.1 == k) = true
  · simp only [hhas, if_true]
    by_cases hak : a = k
    · subst hak
      rw [find?_update_self a v m.entries hhas]
      simp
    · rw [find?_update_other k a v m.entries hak]
      simp [hak]
  · simp only [hhas, if_false, Bool.false_eq_true]
    rw [List.find?_append]
    by_cases hak : a = k
    · subst hak
      have hnone : m.entries.find? (fun e => e.1 == a) = none := by
        rw [List.find?_eq_none]
        intro e he hpe
        exact hhas (List.any_eq_true.mpr ⟨e, he, hpe⟩)
      have hone : ([((a : String), v)].find? (fun e => e.1 == a)) = some (a, v) := by
        rw [@List.find?_cons_of_pos _ (fun e => e.1 == a) (a, v) _ (by simp)]
      simp [hnone, hone]
    · have hone : ([((k : String), v)].find? (fun e => e.1 == a)) = none := by
        rw [@List.find?_cons_of_neg _ (fun e => e.1 == a) (k, v) _
            (by simp [beq_iff_eq]; exact fun h => hak h.symm)]
        rfl
      simp [hone, hak]

/-! ## C10: empty query -/

/-- C10: for every section, the match count of the empty query is 0 (the
counting operation returns zero rather than counting an occurrence at
every position), even though the search filter treats the empty query as
matching every section (`filterSection` returns the section unchanged). -/
theorem emptyQuery_count_zero_filter_identity (s : RuleSection) :
    countQueryMatches s [] = 0 ∧ filterSection s [] = some s := by
  refine ⟨by simp [countQueryMatches], ?_⟩
  cases s with
  | mk t sl lv ct ss => simp [filterSection]

/-! ## C4: tooltip-term registration order -/

lemma foldl_ite_set (l : List (String × String)) (m : JsMap String) :
    l.foldl (fun m e => if e.1 ≠ "" ∧ e.2 ≠ "" then m.set e.1 e.2 else m) m
      = (l.filter (fun e => decide (e.1 ≠ "" ∧ e.2 ≠ ""))).foldl
          (fun m e => m.set e.1 e.2) m := by
  induction l generalizing m with
  | nil => rfl
  | cons a l ih =>
    by_cases hp : a.1 ≠ "" ∧ a.2 ≠ ""
    · simp [hp, List.filter_cons, ih]
    · simp [hp, List.filter_cons, ih]

lemma get_foldl_set (l : List (String × String)) (m : JsMap String) (k : String) :
    (l.foldl (fun m e => m.set e.1 e.2) m).get k
      = (l.reverse.find? (fun e => e.1 == k)).elim (m.get k) (fun e => some e.2) := by
  induction l generalizing m with
  | nil => simp
  | cons a l ih =>
    rw [List.foldl_cons, ih, List.reverse_cons, List.find?_append]
    cases hfind : l.reverse.find? (fun e => e.1 == k) with
    | some e => simp [hfind]
    | none =>
      by_cases hk : a.1 = k
      · have h1 : ([a].find? (fun e => e.1 == k)) = some a := by
          rw [@List.find?_cons_of_pos _ (fun e => e.1 == k) a _ (by simp [beq_iff_eq, hk])]
        simp [hfind, h1, JsMap.get_set, hk.symm]
      · have h1 : ([a].find? (fun e => e.1 == k)) = none := by
          rw [@List.find?_cons_of_neg _ (fun e => e.1 == k) a _ (by simp [beq_iff_eq, hk])]
          rfl
        have hne : ¬ k = a.1 := fun h => hk h.symm
        simp [hfind, h1, JsMap.get_set, hne]

/-- C4 (amended): tooltip-term registration is last-wins — the final mapping
resolves every key to the value of its latest registration among the
truthiness-filtered (attributes, skills, weapon-keyword) pairs, because
`Map.set` overwrites the value of a duplicate key. -/
theorem buildTooltipTerms_last_wins (attrs skills weaponKws : List (String × String))
    (k : String) :
    (buildTooltipTerms attrs skills weaponKws).get k
      = ((tooltipRegs attrs skills weaponKws).reverse.find? (fun e => e.1 == k)).map (·.2) := by
  have helim : ∀ (o : Option (String × String)),
      o.elim (none : Option String) (fun e => some e.2) = o.map (·.2) := by
    intro o
    cases o <;> rfl
  unfold buildTooltipTerms tooltipRegs
  rw [foldl_ite_set, foldl_ite_set, foldl_ite_set, ← List.foldl_append, ← List.foldl_append,
      get_foldl_set]
  have hempty : (JsMap.empty : JsMap String).get k = none := rfl
  rw [hempty, helim, List.append_assoc]

/-- C4 (counterexample): when the same key is registered by an earlier and a
later source, the final mapping carries the later description, not the
earliest one as the claim states. -/
theorem buildTooltipTerms_first_wins_counterexample :
    (buildTooltipTerms [("Strength", "Attribute: physical power")]
        [("Strength", "Skill: lifting")] []).get "Strength"
      = some "Skill: lifting"
    ∧ ("Skill: lifting" : String) ≠ "Attribute: physical power" := by
  constructor
  · rfl
  · decide

/-! ## C5 and C9: content normalizer -/

theorem echoes_dupCount : ∀ (texts : List String) (rest : List RuleBlock),
    echoes texts rest (dupCount texts rest)
  | [], _ => by simp [dupCount, echoes]
  | _ :: _, [] => by simp [dupCount, echoes]
  | t :: ts, b :: bs => by
    cases b with
    | paragraph p sp =>
      by_cases hp : p = t
      · subst hp
        have h1 : dupCount (p :: ts) (RuleBlock.paragraph p sp :: bs)
            = dupCount ts bs + 1 := by
          simp [dupCount, Nat.add_comm]
        rw [h1]
        exact ⟨rfl, echoes_dupCount ts bs⟩
      · simp [dupCount, hp, echoes]
    | list o i => simp [dupCount, echoes]
    | table r => simp [dupCount, echoes]

theorem echoes_le_dupCount : ∀ (texts : List String) (rest : List RuleBlock) (k : Nat),
    echoes texts rest k → k ≤ dupCount texts rest := by
  intro texts rest k
  induction k generalizing texts rest with
  | zero => intro _; exact Nat.zero_le _
  | succ k ih =>
    intro h
    match texts, rest with
    | [], _ => exact absurd h (by simp [echoes])
    | _ :: _, [] => exact absurd h (by simp [echoes])
    | t :: ts, RuleBlock.list o i :: bs => exact absurd h (by simp [echoes])
    | t :: ts, RuleBlock.table r :: bs => exact absurd h (by simp [echoes])
    | t :: ts, RuleBlock.paragraph p sp :: bs =>
      obtain ⟨hp, he⟩ := h
      subst hp
      have h1 : dupCount (p :: ts) (RuleBlock.paragraph p sp :: bs)
          = dupCount ts bs + 1 := by
        simp [dupCount, Nat.add_comm]
      rw [h1]
      exact Nat.succ_le_succ (ih ts bs he)

/-- C5: after a table block, normalization removes exactly the maximal prefix
run of immediately following paragraph blocks echoing the flattened
(empty-discarded) cell texts in order: the skipped count satisfies the echo
property and dominates every echoing prefix length; in particular the
`["A","B"]` table followed by paragraphs `"A"`, `"B"`, `"C"` loses exactly
the first two paragraphs, and a first-paragraph mismatch removes zero. -/
theorem normalizeContent_removes_echo_prefix
    (rows : List (List RuleCell)) (rest : List RuleBlock) :
    (normalizeContent (RuleBlock.table rows :: rest)
        = RuleBlock.table rows ::
            normalizeContent (rest.drop
              (dupCount ((flattenTableText rows).filter (fun t => t.length > 0)) rest))
      ∧ echoes ((flattenTableText rows).filter (fun t => t.length > 0)) rest
          (dupCount ((flattenTableText rows).filter (fun t => t.length > 0)) rest)
      ∧ (∀ k, echoes ((flattenTableText rows).filter (fun t => t.length > 0)) rest k →
          k ≤ dupCount ((flattenTableText rows).filter (fun t => t.length > 0)) rest))
    ∧ normalizeContent [tableAB, paraA, paraB, paraC] = [tableAB, paraC]
    ∧ normalizeContent [tableAB, paraC, paraA] = [tableAB, paraC, paraA] := by
  refine ⟨⟨?_, echoes_dupCount _ _, fun k h => echoes_le_dupCount _ _ k h⟩, ?_, ?_⟩
  · simp only [normalizeContent]
  · simp [normalizeContent, dupCount, flattenTableText, tableAB, paraA, paraB, paraC]
  · simp [normalizeContent, dupCount, flattenTableText, tableAB, paraC, paraA]

theorem paragraphs_take_dupCount : ∀ (texts : List String) (rest : List RuleBlock),
    ∀ b ∈ rest.take (dupCount texts rest), b.isParagraph = true
  | [], rest => by simp [dupCount]
  | _ :: _, [] => by simp [dupCount]
  | t :: ts, b :: bs => by
    cases b with
    | paragraph p sp =>
      by_cases hp : p = t
      · subst hp
        have h1 : dupCount (p :: ts) (RuleBlock.paragraph p sp :: bs)
            = dupCount ts bs + 1 := by
          simp [dupCount, Nat.add_comm]
        rw [h1, List.take_succ_cons]
        intro x hx
        rcases List.mem_cons.mp hx with hx | hx
        · subst hx
          simp [RuleBlock.isParagraph]
        · exact paragraphs_take_dupCount ts bs x hx
      · simp [dupCount, hp]
    | list o i => simp [dupCount]
    | table r => simp [dupCount]

lemma filter_nonpara_drop (texts : List String) (rest : List RuleBlock) :
    (rest.drop (dupCount texts rest)).filter (fun b => !b.isParagraph)
      = rest.filter (fun b => !b.isParagraph) := by
  conv_rhs => rw [← List.take_append_drop (dupCount texts rest) rest]
  rw [List.filter_append]
  have h : (rest.take (dupCount texts rest)).filter (fun b => !b.isParagraph) = [] := by
    rw [List.filter_eq_nil_iff]
    intro b hb
    simp [paragraphs_take_dupCount texts rest b hb]
  simp [h]

/-- C9: the normalizer's output is a sublist of its input (same blocks, same
relative order), and only paragraph blocks are ever removed — the
non-paragraph blocks (tables and lists) of the input survive unchanged, in
order and with multiplicity. -/
theorem normalizeContent_frame (l : List RuleBlock) :
    (normalizeContent l).Sublist l
    ∧ (normalizeContent l).filter (fun b => !b.isParagraph)
        = l.filter (fun b => !b.isParagraph) := by
  induction l using normalizeContent.induct with
  | case1 => simp [normalizeContent]
  | case2 rows rest texts ih =>
    constructor
    · simp only [normalizeContent]
      exact List.Sublist.cons₂ _ (ih.1.trans (List.drop_sublist _ _))
    · simp only [normalizeContent, List.filter_cons]
      have hb : (!(RuleBlock.table rows).isParagraph) = true := by
        simp [RuleBlock.isParagraph]
      rw [if_pos hb, if_pos hb, ih.2, filter_nonpara_drop]
  | case3 b rest hnot ih =>
    constructor
    · simp only [normalizeContent]
      exact List.Sublist.cons₂ _ ih.1
    · simp only [normalizeContent, List.filter_cons]
      rw [ih.2]

/-! ## C1: longest-match-first glossary annotation -/

lemma mem_insertDesc (x a : String) : ∀ (l : List String),
    a ∈ insertDesc x l ↔ a = x ∨ a ∈ l
  | [] => by simp [insertDesc]
  | y :: ys => by
    by_cases h : x.length < y.length
    · simp only [insertDesc, if_pos h, List.mem_cons, mem_insertDesc x a ys]
      tauto
    · simp only [insertDesc, if_neg h, List.mem_cons]

lemma sorted_insertDesc (x : String) : ∀ (l : List String),
    l.Sorted (fun a b : String => b.length ≤ a.length) →
    (insertDesc x l).Sorted (fun a b : String => b.length ≤ a.length)
  | [], _ => by simp [insertDesc]
  | y :: ys, h => by
    rcases List.sorted_cons.mp h with ⟨hy, hys⟩
    by_cases hlt : x.length < y.length
    · rw [insertDesc, if_pos hlt]
      refine List.sorted_cons.mpr ⟨?_, sorted_insertDesc x ys hys⟩
      intro b hb
      rcases (mem_insertDesc x b ys).mp hb with rfl | hb
      · exact Nat.le_of_lt hlt
      · exact hy b hb
    · rw [insertDesc, if_neg hlt]
      refine List.sorted_cons.mpr ⟨?_, h⟩
      intro b hb
      rcases List.mem_cons.mp hb with rfl | hb
      · exact Nat.le_of_not_lt hlt
      · exact Nat.le_trans (hy b hb) (Nat.le_of_not_lt hlt)

lemma sorted_sortByLenDesc : ∀ (l : List String),
    (sortByLenDesc l).Sorted (fun a b : String => b.length ≤ a.length)
  | [] => by simp [sortByLenDesc]
  | x :: xs => sorted_insertDesc x (sortByLenDesc xs) (sorted_sortByLenDesc xs)

lemma scanAux_mem_findTerm (terms : List String) (text : List Char) :
    ∀ (fuel i₀ i : Nat) (t : String),
    (i, t) ∈ scanAux terms text i₀ fuel → findTerm terms text i = some t := by
  intro fuel
  induction fuel with
  | zero => intro i₀ i t h; simp [scanAux] at h
  | succ fuel ih =>
    intro i₀ i t h
    rw [scanAux] at h
    by_cases hlen : i₀ < text.length
    · rw [if_pos hlen] at h
      cases hfind : findTerm terms text i₀ with
      | some t₀ =>
        rw [hfind] at h
        rcases List.mem_cons.mp h with heq | h
        · obtain ⟨h1, h2⟩ := Prod.mk.injEq .. ▸ heq
          injection heq with h1 h2
          subst h1; subst h2
          exact hfind
        · exact ih _ i t h
      | none =>
        rw [hfind] at h
        exact ih _ i t h
    · rw [if_neg hlen] at h
      simp at h

lemma find?_sorted_length_maximal (p : String → Bool) :
    ∀ (ts : List String) (t l : String),
    ts.Sorted (fun a b : String => b.length ≤ a.length) →
    ts.find? p = some t → l ∈ ts → p l = true → l.length ≤ t.length := by
  intro ts
  induction ts with
  | nil => intro t l _ hfind; simp at hfind
  | cons h rest ih =>
    intro t l hsorted hfind hmem hp
    rcases List.sorted_cons.mp hsorted with ⟨hhead, hrest⟩
    by_cases hph : p h = true
    · rw [List.find?_cons_of_pos _ hph] at hfind
      injection hfind with hfind
      subst hfind
      rcases List.mem_cons.mp hmem with rfl | hmem
      · exact Nat.le_refl _
      · exact hhead l hmem
    · rw [List.find?_cons_of_neg _ hph] at hfind
      rcases List.mem_cons.mp hmem with rfl | hmem
      · exact absurd hp hph
      · exact ih t l hrest hfind hmem hp

/-- C1: the composite glossary matcher's term list is sorted by descending
length, so whenever the scan emits an annotation at a position where some
term matches, the emitted term also matches there and is at least as long —
the annotation covers the full longer term, and a shorter contained term
can never be the one annotated at that position. -/
theorem glossary_longest_match_first
    (tooltipTerms : JsMap String) (linkTerms : JsMap LinkInfo)
    (text : List Char) (i : Nat) (t l : String)
    (hmem : l ∈ glossaryTerms tooltipTerms linkTerms)
    (hl : matchesAt text i l = true)
    (hscan : (i, t) ∈ glossaryScan (glossaryTerms tooltipTerms linkTerms) text) :
    matchesAt text i t = true ∧ l.length ≤ t.length := by
  have hfind := scanAux_mem_findTerm _ text _ 0 i t hscan
  have ht : matchesAt text i t = true := by
    have := List.find?_some hfind
    simpa using this
  exact ⟨ht, find?_sorted_length_maximal _ _ t l (sorted_sortByLenDesc _) hfind hmem hl⟩

/-- C1 (witness): with glossary terms "Strength" (tooltip) and
"Strength Save" (link), annotating the text "Strength Save" yields a single
scan match at position 0 whose term is the full longer phrase. -/
theorem glossary_longest_match_first_witness :
    ("Strength Save" : String) ∈ glossaryTerms ⟨[("Strength", "Physical power")]⟩
        ⟨[("Strength Save", ⟨"strength-save", "core", 1⟩)]⟩
    ∧ matchesAt "Strength Save".data 0 "Strength Save" = true
    ∧ (0, ("Strength Save" : String)) ∈ glossaryScan
        (glossaryTerms ⟨[("Strength", "Physical power")]⟩
          ⟨[("Strength Save", ⟨"strength-save", "core", 1⟩)]⟩) "Strength Save".data
    ∧ (matchesAt "Strength Save".data 0 "Strength Save" = true
        ∧ ("Strength Save" : String).length ≤ ("Strength Save" : String).length) := by
  refine ⟨by decide, by decide, by decide, ?_⟩
  exact glossary_longest_match_first ⟨[("Strength", "Physical power")]⟩
    ⟨[("Strength Save", ⟨"strength-save", "core", 1⟩)]⟩
    "Strength Save".data 0 "Strength Save" "Strength Save"
    (by decide) (by decide) (by decide)

/-! ## C7 and C8: keyword matcher -/

lemma expandRepl_noDollar : ∀ (repl before matched after : List Char),
    noDollar repl = true → expandRepl before matched after repl = repl := by
  intro repl
  induction repl with
  | nil => intro _ _ _ _; rfl
  | cons c rest ih =>
    intro before matched after h
    simp only [noDollar, List.all_cons, Bool.and_eq_true, decide_eq_true_eq] at h
    obtain ⟨hc, hrest⟩ := h
    have hrest' : noDollar rest = true := by simpa [noDollar] using hrest
    simp only [expandRepl, hc, ih before matched after hrest']

lemma replaceWordXAux_noDollar (repl : List Char) (hnd : noDollar repl = true) :
    ∀ (desc : List Char) (prevW : Bool) (before : List Char),
    replaceWordXAux repl prevW before desc = literalReplaceWordXAux repl prevW desc := by
  intro desc
  induction desc with
  | nil => intro _ _; rfl
  | cons c rest ih =>
    intro prevW before
    simp only [replaceWordXAux, literalReplaceWordXAux]
    split
    · rw [expandRepl_noDollar repl before ['X'] rest hnd, ih]
    · rw [ih]

lemma replaceWordX_noDollar (desc repl : List Char) (hnd : noDollar repl = true) :
    replaceWordX desc repl = literalReplaceWordX desc repl :=
  replaceWordXAux_noDollar repl hnd desc false []

/-- C7 (amended): for a parameterized keyword definition matched with capture
`cap`, the resolved description is the definition's description with every
whole-word `X` replaced by the ECMAScript replacement-expansion of the
trimmed capture (falling back to the literal `X` token when it trims to
empty); this coincides with literal substitution of the trimmed capture
exactly when that value contains no `$`; a definition without a parameter
returns the description unchanged. -/
theorem resolveWeaponKeyword_param_substitution
    (name desc : String) (keyword : List Char) (cap : Option (List Char))
    (hne : ¬ (trimL keyword).isEmpty = true)
    (hmatch : matchShape (buildMatcher name.data) (trimL keyword) = some cap) :
    resolveWeaponKeyword [(name, desc)] keyword
      = some ⟨trimL keyword, wkDescription desc cap, wkAnchor (trimL keyword)⟩
    ∧ (cap = none → wkDescription desc cap = desc.data)
    ∧ (∀ raw, cap = some raw →
        wkDescription desc cap
          = replaceWordX desc.data (if (trimL raw).isEmpty then ['X'] else trimL raw))
    ∧ (∀ raw, cap = some raw →
        noDollar (if (trimL raw).isEmpty then ['X'] else trimL raw) = true →
        wkDescription desc cap
          = literalReplaceWordX desc.data
              (if (trimL raw).isEmpty then ['X'] else trimL raw)) := by
  refine ⟨?_, ?_, ?_, ?_⟩
  · simp only [resolveWeaponKeyword, List.findSome?_cons]
    rw [if_neg hne, hmatch]
  · intro h; subst h; rfl
  · intro raw h; subst h; rfl
  · intro raw h hnd
    subst h
    simpa [wkDescription] using replaceWordX_noDollar desc.data _ hnd

/-- C7 (witness): resolving `"Reach (3)"` against the parameterized
definition `"Reach (X)"` substitutes the captured `3` into the
description. -/
theorem resolveWeaponKeyword_param_substitution_witness :
    (¬ (trimL "Reach (3)".data).isEmpty = true)
    ∧ matchShape (buildMatcher "Reach (X)".data) (trimL "Reach (3)".data)
        = some (some ['3'])
    ∧ (resolveWeaponKeyword [("Reach (X)", "This weapon can strike at range X.")]
          "Reach (3)".data
        = some ⟨trimL "Reach (3)".data,
                wkDescription "This weapon can strike at range X." (some ['3']),
                wkAnchor (trimL "Reach (3)".data)⟩)
    ∧ wkDescription "This weapon can strike at range X." (some ['3'])
        = "This weapon can strike at range 3.".data := by
  refine ⟨by decide, by decide, ?_, by decide⟩
  exact (resolveWeaponKeyword_param_substitution "Reach (X)"
    "This weapon can strike at range X." "Reach (3)".data (some ['3'])
    (by decide) (by decide)).1

/-- C7 (counterexample): a captured value containing `$` is not substituted
literally — resolving `"Reach ($$)"` yields the description `"$ range"`,
not the claim's `"$$ range"`. -/
theorem resolveWeaponKeyword_dollar_counterexample :
    (resolveWeaponKeyword [("Reach (X)", "X range")] "Reach ($$)".data).map
        (fun m => m.description) = some "$ range".data
    ∧ literalReplaceWordX "X range".data (trimL "$$".data) = "$$ range".data
    ∧ "$ range".data ≠ "$$ range".data := by
  decide

lemma splitFirst_isSome_eq_containsSub : ∀ (pat s : List Char),
    (splitFirst pat s).isSome = containsSub s pat := by
  intro pat s
  induction s with
  | nil =>
    by_cases h : pat.isPrefixOf ([] : List Char) = true <;>
      simp [splitFirst, containsSub, h]
  | cons c rest ih =>
    by_cases h : pat.isPrefixOf (c :: rest) = true <;>
      simp [splitFirst, containsSub, h, ih]

/-- C8 (amended): for a keyword name without `"(X)"`, the compiled matcher is
parameterized exactly when the trimmed name contains the two-character
substring `" X"` anywhere — including when the `X` merely starts a longer
word such as `" Xtra"` — because the source tests `trimmed.includes(" X")`;
only names free of both placeholders compile to the literal whole-string
matcher, for which resolving exactly the definition name succeeds with the
description unchanged. -/
theorem buildMatcher_spaceX_on_any_space_X
    (name : String)
    (hparen : splitFirst ['(', 'X', ')'] (trimL name.data) = none) :
    ((buildMatcher name.data).hasParam = true
        ↔ containsSub (trimL name.data) [' ', 'X'] = true)
    ∧ (containsSub (trimL name.data) [' ', 'X'] = false →
        buildMatcher name.data = MatcherShape.literal (trimL name.data))
    ∧ (containsSub (trimL name.data) [' ', 'X'] = false →
        ¬ (trimL name.data).isEmpty = true →
        ∀ desc : String,
          resolveWeaponKeyword [(name, desc)] name.data
            = some ⟨trimL name.data, desc.data, wkAnchor (trimL name.data)⟩) := by
  have hb : buildMatcher name.data
      = (match splitFirst [' ', 'X'] (trimL name.data) with
         | some p => MatcherShape.spaceX p.1 p.2
         | none => MatcherShape.literal (trimL name.data)) := by
    rw [buildMatcher, hparen]
  refine ⟨?_, ?_, ?_⟩
  · rw [hb, ← splitFirst_isSome_eq_containsSub]
    cases hsx : splitFirst [' ', 'X'] (trimL name.data) with
    | some p => simp [MatcherShape.hasParam]
    | none => simp [MatcherShape.hasParam]
  · intro hno
    rw [hb]
    have : splitFirst [' ', 'X'] (trimL name.data) = none := by
      have := splitFirst_isSome_eq_containsSub [' ', 'X'] (trimL name.data)
      rw [hno] at this
      exact Option.not_isSome_iff_eq_none.mp (by simp [this])
    rw [this]
  · intro hno hne desc
    have hlit : buildMatcher name.data = MatcherShape.literal (trimL name.data) := by
      rw [hb]
      have : splitFirst [' ', 'X'] (trimL name.data) = none := by
        have := splitFirst_isSome_eq_containsSub [' ', 'X'] (trimL name.data)
        rw [hno] at this
        exact Option.not_isSome_iff_eq_none.mp (by simp [this])
      rw [this]
    have hself : matchShape (buildMatcher name.data) (trimL name.data) = some none := by
      rw [hlit, matchShape]
      have : ciEqL (trimL name.data) (trimL name.data) = true := by
        simp [ciEqL]
      rw [if_pos this]
    simp only [resolveWeaponKeyword, List.findSome?_cons]
    rw [if_neg hne, hself]
    rfl

/-- C8 (witness): the placeholder-free name `"Burst"` compiles to the literal
matcher and resolves its own name with the description unchanged. -/
theorem buildMatcher_spaceX_on_any_space_X_witness :
    splitFirst ['(', 'X', ')'] (trimL "Burst".data) = none
    ∧ (((buildMatcher "Burst".data).hasParam = true
          ↔ containsSub (trimL "Burst".data) [' ', 'X'] = true)
       ∧ (containsSub (trimL "Burst".data) [' ', 'X'] = false →
           buildMatcher "Burst".data = MatcherShape.literal (trimL "Burst".data))
       ∧ (containsSub (trimL "Burst".data) [' ', 'X'] = false →
           ¬ (trimL "Burst".data).isEmpty = true →
           ∀ desc : String,
             resolveWeaponKeyword [("Burst", desc)] "Burst".data
               = some ⟨trimL "Burst".data, desc.data, wkAnchor (trimL "Burst".data)⟩)) := by
  exact ⟨by decide, buildMatcher_spaceX_on_any_space_X "Burst" (by decide)⟩

/-- C8 (counterexample): the name `"Super Xtra"`, where `" X"` occurs only as
the start of the longer word `"Xtra"`, still compiles to a parameterized
matcher (`^Super\s+(.+)tra$`), and resolving the literal name captures
`"X"` — contradicting the claim that such names compile to a literal
matcher with no parameter. -/
theorem buildMatcher_xtra_counterexample :
    splitFirst ['(', 'X', ')'] (trimL "Super Xtra".data) = none
    ∧ (buildMatcher "Super Xtra".data).hasParam = true
    ∧ buildMatcher "Super Xtra".data = MatcherShape.spaceX "Super".data "tra".data
    ∧ matchShape (buildMatcher "Super Xtra".data) "Super Xtra".data
        = some (some ['X']) := by
  decide

/-! ## C3: keyword-cell fallback path -/

lemma allSome_eq_none {α : Type} : ∀ (l : List (Option α)), none ∈ l → allSome l = none := by
  intro l
  induction l with
  | nil => intro h; simp at h
  | cons x rest ih =>
    intro h
    cases x with
    | none => rfl
    | some v =>
      rcases List.mem_cons.mp h with heq | hmem
      · exact absurd heq.symm (by simp)
      · simp [allSome, ih hmem]

/-- C3 (amended): a keyword-table cell with at least one comma-token the
Keyword Matcher fails to resolve is rendered through `highlightText` —
plain text with search highlighting only — not through the general glossary
annotator. -/
theorem renderKeywordText_fallback_highlight
    (defs : List (String × String)) (gl : Glossary) (text q : List Char)
    (hfail : ∃ p ∈ splitKeywordList text, resolveWeaponKeyword defs p = none) :
    renderKeywordText defs gl text q = highlightText text q := by
  obtain ⟨p, hp, hres⟩ := hfail
  have hne : ¬ (splitKeywordList text).isEmpty = true := by
    intro h
    rw [List.isEmpty_iff] at h
    rw [h] at hp
    simp at hp
  have hnone : (none : Option WeaponKeywordMatch)
      ∈ (splitKeywordList text).map (resolveWeaponKeyword defs) :=
    hres ▸ List.mem_map_of_mem _ hp
  simp only [renderKeywordText]
  rw [if_neg hne, allSome_eq_none _ hnone]

/-- C3 (witness): the cell `"Fire"` with an empty keyword table fails to
resolve and falls back to plain highlighting. -/
theorem renderKeywordText_fallback_highlight_witness :
    (∃ p ∈ splitKeywordList "Fire".data, resolveWeaponKeyword [] p = none)
    ∧ renderKeywordText [] glFire "Fire".data [] = highlightText "Fire".data [] :=
  ⟨by decide, renderKeywordText_fallback_highlight [] glFire "Fire".data [] (by decide)⟩

/-- C3 (counterexample): on the failing cell `"Fire"` the fallback output is
`highlightText`, which differs from the general glossary annotator's output
(the glossary pass emits a tooltip span for the term "Fire"; the fallback
emits none) — so the cell is not annotated via the general glossary
annotator as the claim states. -/
theorem renderKeywordText_not_glossary_counterexample :
    resolveWeaponKeyword [] "Fire".data = none
    ∧ renderKeywordText [] glFire "Fire".data [] = highlightText "Fire".data []
    ∧ (renderGlossaryText "Fire".data [] glFire).any RNode.isTooltip = true
    ∧ (renderKeywordText [] glFire "Fire".data []).any RNode.isTooltip = false
    ∧ renderKeywordText [] glFire "Fire".data [] ≠ renderGlossaryText "Fire".data [] glFire := by
  refine ⟨by decide, rfl, by decide, by decide, ?_⟩
  intro h
  have h2 : (renderKeywordText [] glFire "Fire".data []).any RNode.isTooltip
      = (renderGlossaryText "Fire".data [] glFire).any RNode.isTooltip := by rw [h]
  rw [show (renderKeywordText [] glFire "Fire".data []).any RNode.isTooltip = false by decide,
      show (renderGlossaryText "Fire".data [] glFire).any RNode.isTooltip = true by decide] at h2
  exact Bool.false_ne_true h2

/-! ## C6: duplicate-heading resolution -/

lemma find?_eq_head?_filter {α : Type} (p : α → Bool) : ∀ (l : List α),
    l.find? p = (l.filter p).head? := by
  intro l
  induction l with
  | nil => rfl
  | cons a rest ih =>
    by_cases h : p a = true
    · rw [List.find?_cons_of_pos _ h, List.filter_cons_of_pos h]
      rfl
    · rw [List.find?_cons_of_neg _ h, List.filter_cons_of_neg (by simpa using h), ih]

lemma foldl_min_attained : ∀ (rest : List Cand) (a : Nat),
    rest.foldl (fun acc x => min acc x.depth) a = a
    ∨ ∃ x ∈ rest, rest.foldl (fun acc x => min acc x.depth) a = x.depth := by
  intro rest
  induction rest with
  | nil => intro a; left; rfl
  | cons x xs ih =>
    intro a
    rw [List.foldl_cons]
    rcases ih (min a x.depth) with h | ⟨y, hy, h⟩
    · rcases min_choice a x.depth with hmin | hmin
      · left; rw [h, hmin]
      · right; exact ⟨x, List.mem_cons_self x xs, by rw [h, hmin]⟩
    · right; exact ⟨y, List.mem_cons_of_mem _ hy, h⟩

lemma minDepthOf_attained : ∀ (l : List Cand), l ≠ [] → ∃ c ∈ l, c.depth = minDepthOf l := by
  intro l hne
  cases l with
  | nil => exact absurd rfl hne
  | cons c rest =>
    rcases foldl_min_attained rest c.depth with h | ⟨x, hx, h⟩
    · exact ⟨c, List.mem_cons_self c rest, by rw [minDepthOf, h]⟩
    · exact ⟨x, List.mem_cons_of_mem _ hx, by rw [minDepthOf, h]⟩

lemma resolveGroup_spec (l : List Cand) (hne : l ≠ []) :
    ∃ c, l.find? (fun x => x.depth == minDepthOf l) = some c ∧
      resolveGroup l = some ⟨c.id, c.docSlug, l.countP (fun x => x.depth == minDepthOf l)⟩ := by
  obtain ⟨c₀, hc₀mem, hc₀⟩ := minDepthOf_attained l hne
  have hmemf : c₀ ∈ l.filter (fun x => x.depth == minDepthOf l) :=
    List.mem_filter.mpr ⟨hc₀mem, by simp [hc₀]⟩
  cases hf : l.filter (fun x => x.depth == minDepthOf l) with
  | nil => rw [hf] at hmemf; simp at hmemf
  | cons c cs =>
    refine ⟨c, ?_, ?_⟩
    · rw [find?_eq_head?_filter, hf]
      rfl
    · simp only [resolveGroup, hf, List.countP_eq_length_filter]

lemma JsMap.keys_set {α : Type} (m : JsMap α) (k : String) (v : α) :
    (m.set k v).keys = if m.has k then m.keys else m.keys ++ [k] := by
  unfold JsMap.set JsMap.keys
  by_cases h : m.has k = true
  · simp only [h, if_true]
    rw [List.map_map]
    congr 1
    funext e
    by_cases he : e.1 = k
    · simp [Function.comp, he]
    · simp [Function.comp, he]
  · simp only [h]
    simp

lemma JsMap.has_iff_mem_keys {α : Type} (m : JsMap α) (k : String) :
    m.has k = true ↔ k ∈ m.keys := by
  unfold JsMap.has JsMap.keys
  rw [List.any_eq_true]
  constructor
  · rintro ⟨e, he, hpe⟩
    simp only [beq_iff_eq] at hpe
    exact hpe ▸ List.mem_map_of_mem _ he
  · intro h
    obtain ⟨e, he, heq⟩ := List.mem_map.mp h
    exact ⟨e, he, by simp [beq_iff_eq, heq]⟩

lemma nodup_keys_set {α : Type} (m : JsMap α) (k : String) (v : α)
    (h : m.keys.Nodup) : (m.set k v).keys.Nodup := by
  rw [JsMap.keys_set]
  by_cases hh : m.has k = true
  · simp [hh, h]
  · have hk : k ∉ m.keys := fun hmem => hh ((JsMap.has_iff_mem_keys m k).mpr hmem)
    simp [hh, List.nodup_append, h, hk]

lemma foldl_preserve {β σ : Type} (P : σ → Prop) (step : σ → β → σ)
    (hstep : ∀ s x, P s → P (step s x)) :
    ∀ (l : List β) (s : σ), P s → P (l.foldl step s) := by
  intro l
  induction l with
  | nil => intro s h; exact h
  | cons x rest ih =>
    intro s h
    rw [List.foldl_cons]
    exact ih _ (hstep s x h)

lemma addCandidate_nodup (docSlug : String) (m : JsMap (List Cand))
    (sd : RuleSection × Nat) (h : m.keys.Nodup) : (addCandidate docSlug m sd).keys.Nodup := by
  simp only [addCandidate]
  split
  · exact h
  split
  · exact h
  split
  · exact h
  exact nodup_keys_set _ _ _ h

lemma candidatesOf_nodup_keys (docs : List RuleSection) :
    (candidatesOf docs).keys.Nodup := by
  unfold candidatesOf
  refine foldl_preserve (fun (m : JsMap (List Cand)) => m.keys.Nodup) _ ?_ docs JsMap.empty ?_
  · intro m doc hm
    exact foldl_preserve (fun (m : JsMap (List Cand)) => m.keys.Nodup) _
      (fun m sd hm => addCandidate_nodup _ m sd hm) _ m hm
  · simp [JsMap.empty, JsMap.keys]

lemma resolveStep_fst_get_other (acc : JsMap LinkInfo × JsMap String)
    (e : String × List Cand) (k : String) (hek : e.1 ≠ k) :
    (resolveStep acc e).1.get k = acc.1.get k := by
  unfold resolveStep
  split
  · rfl
  · cases hrg : resolveGroup e.2 with
    | none => simp [hrg]
    | some info =>
      simp only [hrg]
      rw [JsMap.get_set, if_neg (fun h => hek h.symm)]

lemma foldl_resolveStep_get_of_not_mem : ∀ (entries : List (String × List Cand)) (k : String),
    (∀ e ∈ entries, e.1 ≠ k) →
    ∀ (acc : JsMap LinkInfo × JsMap String),
    (entries.foldl resolveStep acc).1.get k = acc.1.get k := by
  intro entries
  induction entries with
  | nil => intro k _ acc; rfl
  | cons e rest ih =>
    intro k hk acc
    rw [List.foldl_cons, ih k (fun x hx => hk x (List.mem_cons_of_mem _ hx)),
        resolveStep_fst_get_other acc e k (hk e (List.mem_cons_self e rest))]

lemma foldl_resolveStep_get (entries : List (String × List Cand)) (k : String)
    (hnd : (entries.map (fun e => e.1)).Nodup) (acc : JsMap LinkInfo × JsMap String) :
    (entries.foldl resolveStep acc).1.get k
      = groupGet (entries.find? (fun e => e.1 == k)) (acc.1.get k) := by
  induction entries generalizing acc with
  | nil => rfl
  | cons e rest ih =>
    have hnd' : (rest.map (fun e => e.1)).Nodup := (List.nodup_cons.mp (by simpa using hnd)).2
    rw [List.foldl_cons]
    by_cases hek : e.1 = k
    · have hfind : (e :: rest).find? (fun x => x.1 == k) = some e := by
        rw [List.find?_cons_of_pos _ (by simp [beq_iff_eq, hek])]
      have hrest : ∀ x ∈ rest, x.1 ≠ k := by
        intro x hx hxk
        have hmem : e.1 ∈ rest.map (fun e => e.1) := by
          rw [hek, ← hxk]
          exact List.mem_map_of_mem _ hx
        exact (List.nodup_cons.mp (by simpa using hnd)).1 hmem
      rw [hfind, foldl_resolveStep_get_of_not_mem rest k hrest]
      simp only [groupGet]
      unfold resolveStep
      by_cases hemp : e.2.isEmpty = true
      · rw [if_pos hemp, if_pos hemp]
      · rw [if_neg hemp, if_neg hemp]
        cases hrg : resolveGroup e.2 with
        | none => rfl
        | some info =>
          show (acc.1.set e.1 info).get k = some info
          rw [JsMap.get_set, if_pos hek.symm]
    · have hfind : (e :: rest).find? (fun x => x.1 == k)
          = rest.find? (fun x => x.1 == k) := by
        rw [List.find?_cons_of_neg _ (by simp [beq_iff_eq, hek])]
      rw [hfind, ih hnd', resolveStep_fst_get_other acc e k hek]

/-- C6: for every candidate group of collected headings sharing the same
(trimmed) title, the glossary link target chosen is the first heading in
document traversal order among those at the group's minimum depth, and the
recorded `sameLevelCount` is the number of headings tied at that minimum
depth. -/
theorem buildAnchorMaps_duplicate_resolution
    (docs : List RuleSection) (title : String) (l : List Cand)
    (hget : (candidatesOf docs).get title = some l) (hne : l ≠ []) :
    ∃ c, l.find? (fun x => x.depth == minDepthOf l) = some c ∧
      (buildAnchorMaps docs).1.get title
        = some ⟨c.id, c.docSlug, l.countP (fun x => x.depth == minDepthOf l)⟩ := by
  obtain ⟨c, hfind, hrg⟩ := resolveGroup_spec l hne
  refine ⟨c, hfind, ?_⟩
  have hnd : ((candidatesOf docs).entries.map (fun e => e.1)).Nodup := by
    have := candidatesOf_nodup_keys docs
    simpa [JsMap.keys] using this
  obtain ⟨e, hfe, he2⟩ : ∃ e, (candidatesOf docs).entries.find? (fun x => x.1 == title)
      = some e ∧ e.2 = l := by
    unfold JsMap.get at hget
    cases hf : (candidatesOf docs).entries.find? (fun x => x.1 == title) with
    | none => rw [hf] at hget; simp at hget
    | some e =>
      rw [hf] at hget
      simp only [Option.map_some'] at hget
      exact ⟨e, rfl, by injection hget⟩
  show (resolveCandidates (candidatesOf docs).entries
      (JsMap.empty, docs.foldl (fun m doc => anchorWalk (getSectionId doc) doc m)
        JsMap.empty)).1.get title = _
  unfold resolveCandidates
  rw [foldl_resolveStep_get _ title hnd, hfe]
  simp only [groupGet, he2, hrg]
  rw [if_neg (by simp [List.isEmpty_iff, hne])]

/-- C6 (witness): two sections titled "Resistances" at depths 1 and 2 in
different documents — the depth-1 candidate wins the link target and
`sameLevelCount` is 1. -/
theorem buildAnchorMaps_duplicate_resolution_witness :
    (candidatesOf [docCore, docAppendix]).get "Resistances"
        = some [⟨"resistances", "core-rules", 1⟩, ⟨"resistances", "appendix", 2⟩]
    ∧ ([(⟨"resistances", "core-rules", 1⟩ : Cand), ⟨"resistances", "appendix", 2⟩] ≠ [])
    ∧ ∃ c, ([(⟨"resistances", "core-rules", 1⟩ : Cand),
             ⟨"resistances", "appendix", 2⟩].find?
          (fun x => x.depth == minDepthOf
            [⟨"resistances", "core-rules", 1⟩, ⟨"resistances", "appendix", 2⟩]) = some c)
        ∧ (buildAnchorMaps [docCore, docAppendix]).1.get "Resistances"
            = some ⟨c.id, c.docSlug,
                [(⟨"resistances", "core-rules", 1⟩ : Cand),
                 ⟨"resistances", "appendix", 2⟩].countP
                  (fun x => x.depth == minDepthOf
                    [⟨"resistances", "core-rules", 1⟩, ⟨"resistances", "appendix", 2⟩])⟩ :=
  ⟨by decide, by decide,
    buildAnchorMaps_duplicate_resolution [docCore, docAppendix] "Resistances"
      [⟨"resistances", "core-rules", 1⟩, ⟨"resistances", "appendix", 2⟩]
      (by decide) (by decide)⟩

/-! ## C2: search self-match vs JSON serialization -/

lemma isPrefixOf_iff_exists : ∀ (p h : List Char),
    p.isPrefixOf h = true ↔ ∃ t, h = p ++ t := by
  intro p
  induction p with
  | nil => intro h; simp [List.isPrefixOf]
  | cons c cs ih =>
    intro h
    cases h with
    | nil => simp [List.isPrefixOf]
    | cons d ds =>
      simp only [List.isPrefixOf, Bool.and_eq_true, beq_iff_eq, ih ds]
      constructor
      · rintro ⟨rfl, t, rfl⟩
        exact ⟨t, rfl⟩
      · rintro ⟨t, ht⟩
        injection ht with h1 h2
        exact ⟨h1.symm, t, h2⟩

lemma containsSub_iff_appearsIn : ∀ (hay q : List Char),
    containsSub hay q = true ↔ appearsIn q hay := by
  intro hay q
  induction hay with
  | nil =>
    rw [containsSub]
    by_cases hp : q.isPrefixOf ([] : List Char) = true
    · obtain ⟨t, ht⟩ := (isPrefixOf_iff_exists q []).mp hp
      simp only [hp, if_true, true_iff]
      exact ⟨[], t, by simpa using ht⟩
    · simp only [hp, if_false, Bool.false_eq_true, false_iff]
      rintro ⟨a, b, hab⟩
      have : a = [] ∧ q ++ b = [] := by
        have := hab.symm
        rw [List.append_assoc] at this
        exact List.append_eq_nil.mp this
      exact hp ((isPrefixOf_iff_exists q []).mpr ⟨b, by rw [← this.2]⟩)
  | cons c rest ih =>
    rw [containsSub]
    by_cases hp : q.isPrefixOf (c :: rest) = true
    · obtain ⟨t, ht⟩ := (isPrefixOf_iff_exists q (c :: rest)).mp hp
      simp only [hp, if_true, true_iff]
      exact ⟨[], t, by simpa using ht⟩
    · simp only [hp, if_false, Bool.false_eq_true, ih]
      constructor
      · rintro ⟨a, b, hab⟩
        exact ⟨c :: a, b, by rw [hab]; simp⟩
      · rintro ⟨a, b, hab⟩
        cases a with
        | nil =>
          exfalso
          exact hp ((isPrefixOf_iff_exists q (c :: rest)).mpr ⟨b, by simpa using hab⟩)
        | cons a0 as =>
          injection hab with h1 h2
          exact ⟨as, b, h2⟩

lemma appearsIn_append_left (c : List Char) {t h : List Char} :
    appearsIn t h → appearsIn t (c ++ h) := by
  rintro ⟨a, b, rfl⟩
  exact ⟨c ++ a, b, by simp⟩

lemma appearsIn_append_right (c : List Char) {t h : List Char} :
    appearsIn t h → appearsIn t (h ++ c) := by
  rintro ⟨a, b, rfl⟩
  exact ⟨a, b ++ c, by simp⟩

lemma appearsIn_cons (c : Char) {t h : List Char} :
    appearsIn t h → appearsIn t (c :: h) := by
  intro ha
  have := appearsIn_append_left [c] ha
  simpa using this

lemma appearsIn_refl (t : List Char) : appearsIn t t := ⟨[], [], by simp⟩

lemma appearsIn_trans {q x h : List Char} :
    appearsIn q x → appearsIn x h → appearsIn q h := by
  rintro ⟨a, b, rfl⟩ ⟨a', b', rfl⟩
  exact ⟨a' ++ a, b ++ b', by simp⟩

lemma appearsIn_lowerL {t h : List Char} :
    appearsIn t h → appearsIn (lowerL t) (lowerL h) := by
  rintro ⟨a, b, rfl⟩
  exact ⟨lowerL a, lowerL b, by simp [lowerL]⟩

lemma jsonEscapeChar_plain (c : Char) (h : jsonPlainChar c = true) :
    jsonEscapeChar c = [c] := by
  simp only [jsonPlainChar, Bool.and_eq_true, decide_eq_true_eq] at h
  obtain ⟨⟨h1, h2⟩, h3⟩ := h
  have hlt : ¬ c.toNat < 32 := Nat.not_lt.mpr h3
  simp only [jsonEscapeChar]
  rw [if_neg h1, if_neg h2,
      if_neg (fun hc => absurd h3 (by rw [hc]; decide)),
      if_neg (fun hc => absurd h3 (by rw [hc]; decide)),
      if_neg (fun hc => absurd h3 (by rw [hc]; decide)),
      if_neg (fun hc => absurd h3 (by rw [hc]; decide)),
      if_neg (fun hc => absurd h3 (by rw [hc]; decide)),
      if_neg hlt]

lemma flatten_map_escape_plain : ∀ (s : List Char), s.all jsonPlainChar = true →
    (s.map jsonEscapeChar).flatten = s := by
  intro s
  induction s with
  | nil => intro _; rfl
  | cons c rest ih =>
    intro h
    rw [List.all_cons, Bool.and_eq_true] at h
    rw [List.map_cons, List.flatten_cons, jsonEscapeChar_plain c h.1, ih h.2]
    rfl

lemma appearsIn_jsonQuote (t : String) (h : jsonPlainStr t = true) :
    appearsIn t.data (jsonQuote t) := by
  unfold jsonQuote
  rw [flatten_map_escape_plain t.data h]
  exact ⟨['"'], ['"'], by simp⟩

lemma appearsIn_jsonField (key : String) {t v : List Char} :
    appearsIn t v → appearsIn t (jsonField key v) := by
  intro h
  unfold jsonField
  exact appearsIn_append_left _ (appearsIn_cons _ h)

lemma appearsIn_joinComma {t : List Char} : ∀ (items : List (List Char)) (x : List Char),
    x ∈ items → appearsIn t x → appearsIn t (joinComma items)
  | [], x => by intro h; simp at h
  | [y], x => by
    intro hmem ha
    rcases List.mem_cons.mp hmem with rfl | h
    · simpa [joinComma] using ha
    · simp at h
  | y :: z :: rest, x => by
    intro hmem ha
    rcases List.mem_cons.mp hmem with rfl | h
    · exact appearsIn_append_right _ ha
    · have hrec := appearsIn_joinComma (z :: rest) x h ha
      show appearsIn t (y ++ ',' :: joinComma (z :: rest))
      exact appearsIn_append_left _ (appearsIn_cons _ hrec)

lemma appearsIn_jsonObj {t : List Char} (fields : List (List Char)) (x : List Char)
    (hmem : x ∈ fields) (ha : appearsIn t x) : appearsIn t (jsonObj fields) := by
  unfold jsonObj
  exact appearsIn_cons _ (appearsIn_append_right _ (appearsIn_joinComma fields x hmem ha))

lemma appearsIn_jsonArr {t : List Char} (items : List (List Char)) (x : List Char)
    (hmem : x ∈ items) (ha : appearsIn t x) : appearsIn t (jsonArr items) := by
  unfold jsonArr
  exact appearsIn_cons _ (appearsIn_append_right _ (appearsIn_joinComma items x hmem ha))

lemma appearsIn_serializeCell (cell : RuleCell) (hp : jsonPlainStr cell.text = true) :
    appearsIn cell.text.data (serializeCell cell) := by
  unfold serializeCell
  exact appearsIn_jsonObj _ (jsonField "text" (jsonQuote cell.text)) (by simp)
    (appearsIn_jsonField _ (appearsIn_jsonQuote _ hp))

lemma appearsIn_serializeItem (it : RuleItem) (hp : jsonPlainStr it.text = true) :
    appearsIn it.text.data (serializeItem it) := by
  unfold serializeItem
  exact appearsIn_jsonObj _ (jsonField "text" (jsonQuote it.text)) (by simp)
    (appearsIn_jsonField _ (appearsIn_jsonQuote _ hp))

lemma appearsIn_serializeBlock (b : RuleBlock) (t : String)
    (ht : t ∈ blockTexts b) (hp : jsonPlainStr t = true) :
    appearsIn t.data (serializeBlock b) := by
  cases b with
  | paragraph p sp =>
    simp only [blockTexts, List.mem_singleton] at ht
    subst ht
    simp only [serializeBlock]
    exact appearsIn_jsonObj _ (jsonField "text" (jsonQuote t)) (by simp)
      (appearsIn_jsonField _ (appearsIn_jsonQuote t hp))
  | list ord items =>
    cases items with
    | none => simp [blockTexts] at ht
    | some l =>
      simp only [blockTexts] at ht
      obtain ⟨it, hit, hteq⟩ := List.mem_map.mp ht
      simp only [serializeBlock]
      refine appearsIn_jsonObj _ (jsonField "items" (jsonArr (l.map serializeItem)))
        (by simp) (appearsIn_jsonField _ ?_)
      refine appearsIn_jsonArr _ (serializeItem it) (List.mem_map_of_mem _ hit) ?_
      rw [← hteq]
      exact appearsIn_serializeItem it (by rw [hteq]; exact hp)
  | table rows =>
    simp only [blockTexts] at ht
    obtain ⟨cell, hcell, hteq⟩ := List.mem_map.mp ht
    obtain ⟨row, hrowmem, hcellrow⟩ := List.mem_flatten.mp hcell
    simp only [serializeBlock]
    refine appearsIn_jsonObj _
      (jsonField "rows" (jsonArr (rows.map (fun r => jsonArr (r.map serializeCell)))))
      (by simp) (appearsIn_jsonField _ ?_)
    refine appearsIn_jsonArr _ (jsonArr (row.map serializeCell))
      (List.mem_map_of_mem _ hrowmem) ?_
    refine appearsIn_jsonArr _ (serializeCell cell) (List.mem_map_of_mem _ hcellrow) ?_
    rw [← hteq]
    exact appearsIn_serializeCell cell (by rw [hteq]; exact hp)

lemma sectionTexts_mk (title : String) (slug : Option String) (level : Option Nat)
    (content : Option (List RuleBlock)) (sections : Option (List RuleSection)) :
    sectionTexts (RuleSection.mk title slug level content sections)
      = title ::
        ((match content with
          | some bs => (bs.map blockTexts).flatten
          | none => []) ++
         (match sections with
          | some ss => sectionTextsList ss
          | none => [])) := by
  cases content <;> cases sections <;> rfl

lemma serializeSection_mk (title : String) (slug : Option String) (level : Option Nat)
    (content : Option (List RuleBlock)) (sections : Option (List RuleSection)) :
    serializeSection (RuleSection.mk title slug level content sections)
      = jsonObj ([jsonField "title" (jsonQuote title)]
          ++ (match slug with
              | some sl => [jsonField "slug" (jsonQuote sl)]
              | none => [])
          ++ (match level with
              | some lv => [jsonField "level" (jsonNat lv)]
              | none => [])
          ++ (match content with
              | some bs => [jsonField "content" (jsonArr (bs.map serializeBlock))]
              | none => [])
          ++ (match sections with
              | some ss => [jsonField "sections" (jsonArr (serializeSectionList ss))]
              | none => [])) := by
  cases slug <;> cases level <;> cases content <;> cases sections <;> rfl

lemma sectionTextsList_nil : sectionTextsList [] = [] := rfl

lemma sectionTextsList_cons (s : RuleSection) (rest : List RuleSection) :
    sectionTextsList (s :: rest) = sectionTexts s ++ sectionTextsList rest := rfl

lemma serializeSectionList_cons (s : RuleSection) (rest : List RuleSection) :
    serializeSectionList (s :: rest) = serializeSection s :: serializeSectionList rest := rfl

lemma appearsIn_serializeSectionList_of (ss : List RuleSection)
    (IH : ∀ s' ∈ ss, ∀ t : String, t ∈ sectionTexts s' → jsonPlainStr t = true →
      appearsIn t.data (serializeSection s')) :
    ∀ t : String, t ∈ sectionTextsList ss → jsonPlainStr t = true →
    ∃ x ∈ serializeSectionList ss, appearsIn t.data x := by
  induction ss with
  | nil =>
    intro t ht _
    rw [sectionTextsList_nil] at ht
    simp at ht
  | cons s rest ih =>
    intro t ht hp
    rw [sectionTextsList_cons] at ht
    rcases List.mem_append.mp ht with h | h
    · exact ⟨serializeSection s, by rw [serializeSectionList_cons]; simp,
        IH s (List.mem_cons_self s rest) t h hp⟩
    · obtain ⟨x, hx, ha⟩ := ih (fun s' hs' => IH s' (List.mem_cons_of_mem _ hs')) t h hp
      exact ⟨x, by rw [serializeSectionList_cons]; simp [hx], ha⟩

lemma appearsIn_serializeSection_aux : ∀ (n : Nat) (s : RuleSection),
    sizeOf s ≤ n → ∀ t : String, t ∈ sectionTexts s → jsonPlainStr t = true →
    appearsIn t.data (serializeSection s) := by
  intro n
  induction n with
  | zero =>
    intro s hs
    exfalso
    cases s with
    | mk title slug level content sections => simp at hs
  | succ n ihn =>
    intro s hs t ht hp
    cases s with
    | mk title slug level content sections =>
      rw [sectionTexts_mk] at ht
      rw [serializeSection_mk]
      rcases List.mem_cons.mp ht with heq | hrest
      · subst heq
        exact appearsIn_jsonObj _ (jsonField "title" (jsonQuote t)) (by simp)
          (appearsIn_jsonField _ (appearsIn_jsonQuote t hp))
      · rcases List.mem_append.mp hrest with hct | hst
        · cases content with
          | none => simp at hct
          | some bs =>
            obtain ⟨bt, hbt, hmem2⟩ := List.mem_flatten.mp hct
            obtain ⟨b, hb, rfl⟩ := List.mem_map.mp hbt
            exact appearsIn_jsonObj _
              (jsonField "content" (jsonArr (bs.map serializeBlock))) (by simp)
              (appearsIn_jsonField _ (appearsIn_jsonArr _ (serializeBlock b)
                (List.mem_map_of_mem _ hb) (appearsIn_serializeBlock b t hmem2 hp)))
        · cases sections with
          | none => simp at hst
          | some ss =>
            have IH : ∀ s' ∈ ss, ∀ t : String, t ∈ sectionTexts s' →
                jsonPlainStr t = true → appearsIn t.data (serializeSection s') := by
              intro s' hs'
              refine ihn s' ?_
              have h1 : sizeOf s' < sizeOf ss := List.sizeOf_lt_of_mem hs'
              have h2 : sizeOf (RuleSection.mk title slug level content (some ss)) ≤ n + 1 := hs
              simp at h2
              omega
            obtain ⟨x, hx, ha⟩ := appearsIn_serializeSectionList_of ss IH t hst hp
            exact appearsIn_jsonObj _
              (jsonField "sections" (jsonArr (serializeSectionList ss))) (by simp)
              (appearsIn_jsonField _ (appearsIn_jsonArr _ x hx ha))

theorem appearsIn_serializeSection (s : RuleSection) (t : String)
    (ht : t ∈ sectionTexts s) (hp : jsonPlainStr t = true) :
    appearsIn t.data (serializeSection s) :=
  appearsIn_serializeSection_aux (sizeOf s) s (Nat.le_refl _) t ht hp

/-- C2 (amended): if the query occurs case-insensitively in the section's
title, a content-block text, or a descendant's title/content text (texts
free of JSON-escaped characters), then the section self-matches; the
converse direction of the claim is false, because `JSON.stringify` also
serializes structural key names, slugs and punctuation, which can contain
the query. -/
theorem sectionMatchesQuery_of_text_occurrence
    (s : RuleSection) (q : List Char)
    (h : ∃ t ∈ sectionTexts s, jsonPlainStr t = true
          ∧ containsSub (lowerL t.data) q = true) :
    sectionMatchesQuery s q = true := by
  obtain ⟨t, hmem, hplain, hsub⟩ := h
  unfold sectionMatchesQuery
  by_cases hq : q.isEmpty = true
  · rw [if_pos hq]
  · rw [if_neg hq, containsSub_iff_appearsIn]
    exact appearsIn_trans ((containsSub_iff_appearsIn _ _).mp hsub)
      (appearsIn_lowerL (appearsIn_serializeSection s t hmem hplain))

/-- C2 (witness): the query "fire" occurs in the title "Fire Damage" and the
section self-matches. -/
theorem sectionMatchesQuery_of_text_occurrence_witness :
    (∃ t ∈ sectionTexts (RuleSection.mk "Fire Damage" none none none none),
        jsonPlainStr t = true ∧ containsSub (lowerL t.data) "fire".data = true)
    ∧ sectionMatchesQuery (RuleSection.mk "Fire Damage" none none none none)
        "fire".data = true :=
  ⟨by decide, sectionMatchesQuery_of_text_occurrence _ _ (by decide)⟩

/-- C2 (counterexample): the query "title" self-matches a section whose
title and contents nowhere contain it, because `JSON.stringify` serializes
the structural key `"title"` — refuting the claim that only the section's
title/content texts can cause a match. -/
theorem sectionMatchesQuery_serialization_counterexample :
    sectionMatchesQuery (RuleSection.mk "abcd" none none none none) "title".data = true
    ∧ ((sectionTexts (RuleSection.mk "abcd" none none none none)).all
        (fun t => !(containsSub (lowerL t.data) "title".data))) = true := by
  decide
